import Mathlib

/-!
# packit: checksum-algorithm canonicalisation (`bom.go`) and SBOM format negotiation

A shallow embedding of `GetBOMChecksumAlgorithm` from `bom.go`, together with the
parts of Go's `strings`, `unicode` and `unicode/utf8` packages it calls, and the
properties of the resolver that the specification states.

Go strings are byte sequences; they are embedded as lists of natural numbers
(one per byte).  Runes are natural numbers as well.
-/

namespace Packit

/-! ## Go strings -/

/-- A Go string: an immutable sequence of bytes. -/
abbrev GoString := List Nat

/-- The bytes of an ASCII string literal of the source. -/
def lit (s : String) : GoString := s.toList.map Char.toNat

/-! ## `unicode/utf8` -/

/-- The constant utf8.RuneError (U+FFFD). -/
def RuneError : Nat := 0xFFFD

/-- The constant utf8.RuneSelf: bytes below it are single-byte runes. -/
def RuneSelf : Nat := 0x80

/-- The constant unicode.MaxRune. -/
def MaxRune : Nat := 0x10FFFF

/-- The table utf8.first: for a leading byte, `0xF0` for ASCII, `0xF1` for an
invalid leading byte, otherwise the sequence length in the low three bits and the
index into `acceptRanges` in the high four bits. -/
def first (b : Nat) : Nat :=
  if b < 0x80 then 0xF0
  else if b < 0xC2 then 0xF1
  else if b < 0xE0 then 0x02
  else if b = 0xE0 then 0x13
  else if b < 0xED then 0x03
  else if b = 0xED then 0x23
  else if b < 0xF0 then 0x03
  else if b = 0xF0 then 0x34
  else if b < 0xF4 then 0x04
  else if b = 0xF4 then 0x44
  else 0xF1

/-- The table utf8.acceptRanges: the accepted range of the second byte. -/
def acceptRanges (i : Nat) : Nat × Nat :=
  match i with
  | 0 => (0x80, 0xBF)
  | 1 => (0xA0, 0xBF)
  | 2 => (0x80, 0x9F)
  | 3 => (0x90, 0xBF)
  | 4 => (0x80, 0x8F)
  | _ => (0, 0)

/-- The function utf8.DecodeRuneInString: the first rune of `s` and its width in
bytes; `(RuneError, 0)` on the empty string and `(RuneError, 1)` on an invalid
encoding.  The masks and shifts of the source are written with `%` and `*`. -/
def DecodeRuneInString (s : GoString) : Nat × Nat :=
  match s with
  | [] => (RuneError, 0)
  | s0 :: rest =>
    let x := first s0
    if 0xF0 ≤ x then
      (if x = 0xF0 then s0 else RuneError, 1)
    else
      let sz := x % 8
      let accept := acceptRanges (x / 16)
      if s.length < sz then (RuneError, 1)
      else
        match rest with
        | [] => (RuneError, 1)
        | s1 :: rest1 =>
          if s1 < accept.1 ∨ accept.2 < s1 then (RuneError, 1)
          else if sz ≤ 2 then ((s0 % 32) * 64 + s1 % 64, 2)
          else
            match rest1 with
            | [] => (RuneError, 1)
            | s2 :: rest2 =>
              if s2 < 0x80 ∨ 0xBF < s2 then (RuneError, 1)
              else if sz ≤ 3 then ((s0 % 16) * 4096 + (s1 % 64) * 64 + s2 % 64, 3)
              else
                match rest2 with
                | [] => (RuneError, 1)
                | s3 :: _ =>
                  if s3 < 0x80 ∨ 0xBF < s3 then (RuneError, 1)
                  else ((s0 % 8) * 262144 + (s1 % 64) * 4096 + (s2 % 64) * 64 + s3 % 64, 4)

/-- The runes that `for _, r := range s` yields, with the number of bytes of `s`
as the bound on the number of iterations. -/
def runesAux : Nat → GoString → List Nat
  | 0, _ => []
  | _, [] => []
  | n + 1, s0 :: s =>
    (DecodeRuneInString (s0 :: s)).1 ::
      runesAux n ((s0 :: s).drop (DecodeRuneInString (s0 :: s)).2)

/-- The runes that `for _, r := range s` yields. -/
def runes (s : GoString) : List Nat := runesAux s.length s

/-! ## `unicode.SimpleFold` -/

/-- The table unicode.asciiFold: SimpleFold on the runes below U+0080.  Upper-case
letters go to lower case, lower-case letters to upper case, except `k`, which
goes to the Kelvin sign U+212A, and `s`, which goes to the long s U+017F. -/
def asciiFold (r : Nat) : Nat :=
  if 0x41 ≤ r ∧ r ≤ 0x5A then r + 0x20
  else if r = 0x6B then 0x212A
  else if r = 0x73 then 0x17F
  else if 0x61 ≤ r ∧ r ≤ 0x7A then r - 0x20
  else r

/-- The function unicode.SimpleFold.  The runes below U+0080 are folded by
`asciiFold`, and the two caseOrbit entries that close the orbits of `K` and `S`
are U+017F ↦ `S` and U+212A ↦ `K`.  The rest of the Unicode tables (the other
caseOrbit entries and CaseRanges), which change with the Unicode version of the
Go release, is the parameter `tbl`. -/
def SimpleFold (tbl : Nat → Nat) (r : Nat) : Nat :=
  if MaxRune < r then r
  else if r < 0x80 then asciiFold r
  else if r = 0x17F then 0x53
  else if r = 0x212A then 0x4B
  else tbl r

/-! ## `strings.EqualFold` -/

/-- The inner loop of strings.EqualFold, `for r != sr && r < tr { r = SimpleFold(r) }`.
SimpleFold walks an orbit in increasing order and wraps around, so the runes the
loop visits are distinct and below `tr`; the first argument bounds the number of
iterations and is `tr` at the call.  When the smaller rune is ASCII the loop ends
within three iterations, for every table (`foldLoop_ascii_exits`). -/
def foldLoop (tbl : Nat → Nat) : Nat → Nat → Nat → Nat → Nat
  | 0, _, _, r => r
  | n + 1, sr, tr, r =>
    if r ≠ sr ∧ r < tr then foldLoop tbl n sr tr (SimpleFold tbl r) else r

/-- The body of the rune loop of strings.EqualFold: whether the runes `sr` and
`tr` are equal under simple case folding. -/
def runeFold (tbl : Nat → Nat) (sr tr : Nat) : Bool :=
  if tr = sr then true
  else
    let lo := if tr < sr then tr else sr
    let hi := if tr < sr then sr else tr
    if hi < RuneSelf then
      decide (0x41 ≤ lo ∧ lo ≤ 0x5A ∧ hi = lo + 0x20)
    else
      decide (foldLoop tbl hi lo hi (SimpleFold tbl lo) = hi)

/-- The part of strings.EqualFold after the label `hasUnicode`: the runes of
the rest of `s` are compared with the runes decoded from the front of `t`. -/
def hasUnicode (tbl : Nat → Nat) : List Nat → GoString → Bool
  | [], t => decide (t.length = 0)
  | _ :: _, [] => false
  | sr :: rs, t0 :: t =>
    let d := if t0 < RuneSelf then (t0, 1) else DecodeRuneInString (t0 :: t)
    if runeFold tbl sr d.1 then hasUnicode tbl rs ((t0 :: t).drop d.2) else false

/-- The function strings.EqualFold: whether `s` and `t`, read as UTF-8, are equal
under simple Unicode case folding.  The first three cases are the byte loop of
the ASCII fast path; `sr|tr >= RuneSelf` is written as a disjunction. -/
def EqualFold (tbl : Nat → Nat) : GoString → GoString → Bool
  | sr :: s, tr :: t =>
    if RuneSelf ≤ sr ∨ RuneSelf ≤ tr then hasUnicode tbl (runes (sr :: s)) (tr :: t)
    else if tr = sr then EqualFold tbl s t
    else
      let lo := if tr < sr then tr else sr
      let hi := if tr < sr then sr else tr
      if 0x41 ≤ lo ∧ lo ≤ 0x5A ∧ hi = lo + 0x20 then EqualFold tbl s t else false
  | [], [] => true
  | [], _ :: _ => false
  | _ :: _, [] => false

/-! ## `strings.ReplaceAll` -/

/-- The replacement loop of strings.Replace for a non-empty `old`: the leftmost
occurrences, not overlapping; the counter is the number of bytes of the current
occurrence still to skip. -/
def ReplaceAll.scan (old new : GoString) : Nat → GoString → GoString
  | _, [] => []
  | k + 1, _ :: s => ReplaceAll.scan old new k s
  | 0, c :: s =>
    if old.isPrefixOf (c :: s) then new ++ ReplaceAll.scan old new (old.length - 1) s
    else c :: ReplaceAll.scan old new 0 s

/-- The replacement loop of strings.Replace for the empty `old`: `new` follows
every rune. -/
def ReplaceAll.each (new : GoString) : Nat → GoString → GoString
  | 0, _ => []
  | _, [] => []
  | n + 1, s0 :: s =>
    (s0 :: s).take (DecodeRuneInString (s0 :: s)).2 ++ new ++
      ReplaceAll.each new n ((s0 :: s).drop (DecodeRuneInString (s0 :: s)).2)

/-- The function strings.ReplaceAll. -/
def ReplaceAll (s old new : GoString) : GoString :=
  if old = new then s
  else if old = [] then new ++ ReplaceAll.each new s.length s
  else ReplaceAll.scan old new 0 s

/-! ## `bom.go` -/

/-- The constant SHA256. -/
def SHA256 : GoString := lit "SHA-256"
/-- The constant SHA1. -/
def SHA1 : GoString := lit "SHA-1"
/-- The constant SHA384. -/
def SHA384 : GoString := lit "SHA-384"
/-- The constant SHA512. -/
def SHA512 : GoString := lit "SHA-512"
/-- The constant SHA3256. -/
def SHA3256 : GoString := lit "SHA3-256"
/-- The constant SHA3384. -/
def SHA3384 : GoString := lit "SHA3-384"
/-- The constant SHA3512. -/
def SHA3512 : GoString := lit "SHA3-512"
/-- The constant BLAKE2B256. -/
def BLAKE2B256 : GoString := lit "BLAKE2b-256"
/-- The constant BLAKE2B384. -/
def BLAKE2B384 : GoString := lit "BLAKE2b-384"
/-- The constant BLAKE2B512. -/
def BLAKE2B512 : GoString := lit "BLAKE2b-512"
/-- The constant BLAKE3. -/
def BLAKE3 : GoString := lit "BLAKE3"
/-- The constant MD5. -/
def MD5 : GoString := lit "MD5"

/-- The type checksumAlgorithm: a struct with the one unexported field `name`. -/
structure checksumAlgorithm where
  name : GoString
  deriving DecidableEq, Repr

/-- The method checksumAlgorithm.String. -/
def checksumAlgorithm.String (a : checksumAlgorithm) : GoString := a.name

/-- The method checksumAlgorithm.MarshalText: the byte slice `[]byte(a.String())`
and the nil error (`none`). -/
def checksumAlgorithm.MarshalText (a : checksumAlgorithm) : List Nat × Option GoString :=
  (a.String, none)

/-- The slice literal that GetBOMChecksumAlgorithm ranges over, in its order. -/
def candidates : List GoString :=
  [SHA256, SHA1, SHA384, SHA512, SHA3256, SHA3384, SHA3512,
   BLAKE2B256, BLAKE2B384, BLAKE2B512, BLAKE3, MD5]

/-- The condition of the `if` in the loop of GetBOMChecksumAlgorithm. -/
def matchesCandidate (tbl : Nat → Nat) (a alg : GoString) : Bool :=
  EqualFold tbl a alg || EqualFold tbl (ReplaceAll a (lit "-") (lit "")) alg

/-- The value of `fmt.Errorf("failed to get supported BOM checksum algorithm: %s is not valid", alg)`,
as its message. -/
def invalidAlgorithmError (alg : GoString) : GoString :=
  lit "failed to get supported BOM checksum algorithm: " ++ alg ++ lit " is not valid"

/-- The loop of GetBOMChecksumAlgorithm over the candidates still to try, and the
return after it.  The result is the pair the function returns: the value and the
error (`none` for nil, otherwise the message). -/
def GetBOMChecksumAlgorithm.loop (tbl : Nat → Nat) (alg : GoString) :
    List GoString → checksumAlgorithm × Option GoString
  | [] => ({ name := [] }, some (invalidAlgorithmError alg))
  | a :: rest =>
    if matchesCandidate tbl a alg then ({ name := a }, none)
    else GetBOMChecksumAlgorithm.loop tbl alg rest

/-- The function GetBOMChecksumAlgorithm. -/
def GetBOMChecksumAlgorithm (tbl : Nat → Nat) (alg : GoString) :
    checksumAlgorithm × Option GoString :=
  GetBOMChecksumAlgorithm.loop tbl alg candidates

/-! ## The names of the specification -/

/-- The canonical algorithm names, in the order in which the specification and
the doc comment of GetBOMChecksumAlgorithm list them. -/
def canonicalNames : List GoString :=
  [MD5, SHA1, SHA256, SHA384, SHA512, SHA3256, SHA3384, SHA3512,
   BLAKE2B256, BLAKE2B384, BLAKE2B512, BLAKE3]

/-- A string with every hyphen (byte `0x2D`) removed. -/
def stripHyphens (s : GoString) : GoString := s.filter (fun c => c ≠ 0x2D)

/-- The function strings.ToLower on a string of ASCII bytes: the upper-case
letters are replaced by the lower-case ones. -/
def asciiToLower (s : GoString) : GoString :=
  s.map (fun c => if 0x41 ≤ c ∧ c ≤ 0x5A then c + 0x20 else c)

/-- The test of the specification for one candidate: the input matches the
candidate case-insensitively, with or without the candidate's hyphens. -/
def specMatches (tbl : Nat → Nat) (a alg : GoString) : Bool :=
  EqualFold tbl a alg || EqualFold tbl (stripHyphens a) alg

/-- The reference resolver of the specification: the candidates are tried in the
declaration order of `canonicalNames`, the first that matches wins, and no match
is the error UnsupportedAlgorithm carrying the input. -/
def specResolve (tbl : Nat → Nat) (alg : GoString) : Except GoString checksumAlgorithm :=
  match canonicalNames.find? (fun a => specMatches tbl a alg) with
  | some a => Except.ok { name := a }
  | none => Except.error alg

/-- The pair that a Go function returns for a result of the reference resolver. -/
def specReturn : Except GoString checksumAlgorithm → checksumAlgorithm × Option GoString
  | Except.ok v => (v, none)
  | Except.error alg => ({ name := [] }, some (invalidAlgorithmError alg))

/-! ## Folding keys -/

/-- Rune-wise comparison of two rune sequences with `runeFold`. -/
def runesFold (tbl : Nat → Nat) : List Nat → List Nat → Bool
  | [], [] => true
  | x :: xs, y :: ys => runeFold tbl x y && runesFold tbl xs ys
  | [], _ :: _ => false
  | _ :: _, [] => false

/-- The representative of the simple-folding orbit of a rune, for the orbits that
meet ASCII: the lower-case letter.  Every other rune is its own representative. -/
def foldKey (r : Nat) : Nat :=
  if 0x41 ≤ r ∧ r ≤ 0x5A then r + 0x20
  else if r = 0x17F then 0x73
  else if r = 0x212A then 0x6B
  else r

/-- The runes of a string, each replaced by the representative of its orbit. -/
def foldKeys (s : GoString) : List Nat := (runes s).map foldKey

/-- The folding keys of the accepted inputs: those of the canonical names and of
the canonical names without hyphens. -/
def acceptedKeys : List (List Nat) :=
  canonicalNames.map foldKeys ++ canonicalNames.map (fun a => foldKeys (stripHyphens a))

/-- Inputs that a normalisation other than case folding and hyphen removal would
turn into a canonical name: surrounding blanks, a prefix, an extension, a doubled,
moved or extra hyphen, an underscore or a blank for the hyphen. -/
def rejectedExamples : List GoString :=
  [lit "not-an-algorithm", lit "", lit " SHA-256", lit "SHA-256 ", lit "SHA", lit "SHA-25",
   lit "SHA-2567", lit "XSHA-256", lit "SHA--256", lit "SH-A256", lit "-SHA256", lit "SHA256-",
   lit "SHA-3-256", lit "SHA_256", lit "SHA 256", lit "BLAKE-3", lit "MD-5"]

/-- The match test of the resolver in terms of folding keys. -/
def keyMatches (a alg : GoString) : Bool :=
  decide (foldKeys alg = foldKeys a) || decide (foldKeys alg = foldKeys (stripHyphens a))

/-- The property of the Unicode tables outside the orbits of the ASCII letters
that case-insensitivity of the resolver rests on: no rune outside those orbits
folds into them.  The orbits of the ASCII letters are closed under SimpleFold in
every Unicode version (`K`, `k`, U+212A and `S`, `s`, U+017F are the only ones
with a rune above U+007F). -/
def OrbitsClosed (tbl : Nat → Nat) : Prop :=
  ∀ r, 0x80 ≤ r → r ≠ 0x17F → r ≠ 0x212A →
    0x80 ≤ tbl r ∧ tbl r ≠ 0x17F ∧ tbl r ≠ 0x212A

/-! ## Format negotiation (package `sbom`)

The source of package sbom is not among the source files; its test
`sbom/sbom_test.go` is.  The definitions of this section follow sections 3, 4.3,
4.5 and 7 of the specification and the messages that the test asserts.  The
contents of the SBOM and of the encoded streams play no part in the resolution
of a format and are left out. -/

/-- Modelled from the spec: a FormatSpec (section 3), parsed from a string of the
grammar `name[;version=X.Y.Z]`; the parser of package sbom is missing from the
source files. -/
structure FormatSpec where
  name : GoString
  version : Option GoString
  deriving DecidableEq, Repr

/-- Modelled from the spec: an entry of the format registry of package sbom
(section 4.3), which is missing from the source files: a format name, the version
strings registered for it (at least one) and the file extension of its encoders. -/
structure FormatEntry where
  name : GoString
  version : GoString
  more : List GoString
  extension : GoString
  deriving DecidableEq, Repr

/-- Modelled from the spec: the version strings registered for a format of the
registry of package sbom, which is missing from the source files. -/
def FormatEntry.versions (e : FormatEntry) : List GoString := e.version :: e.more

/-- Modelled from the spec: a ResolvedFormat (section 3) of package sbom, which is
missing from the source files, without its content stream. -/
structure ResolvedFormat where
  name : GoString
  version : GoString
  extension : GoString
  deriving DecidableEq, Repr

/-- Modelled from the spec: the errors of InFormats of package sbom (section 7),
which is missing from the source files: a malformed format specification,
UnsupportedFormat carrying the name, UnsupportedVersion carrying the name and the
requested version. -/
inductive FormatError where
  | Malformed (spec : GoString)
  | UnsupportedFormat (name : GoString)
  | UnsupportedVersion (name version : GoString)
  deriving DecidableEq, Repr

/-- Modelled from the spec: the messages of the errors of InFormats of package
sbom, which is missing from the source files, as `sbom/sbom_test.go` asserts them;
no message is specified for a malformed format specification. -/
def FormatError.Error : FormatError → Option GoString
  | FormatError.Malformed _ => none
  | FormatError.UnsupportedFormat name =>
    some (lit "unsupported SBOM format: '" ++ name ++ lit "'")
  | FormatError.UnsupportedVersion name version =>
    some (lit "version '" ++ version ++ lit "' is not supported for SBOM format '" ++
      name ++ lit "'")

/-- Modelled from the spec: the part of a format specification before the first
`;` (byte `0x3B`) and the part after it, if there is one; from the parser of
package sbom, which is missing from the source files. -/
def splitSemicolon : GoString → GoString × Option GoString
  | [] => ([], none)
  | c :: s =>
    if c = 0x3B then ([], some s)
    else ((c :: (splitSemicolon s).1), (splitSemicolon s).2)

/-- Modelled from the spec: the rest of a string after a given beginning, if it
begins so; from the parser of package sbom, which is missing from the source
files. -/
def afterLeading : GoString → GoString → Option GoString
  | [], s => some s
  | _ :: _, [] => none
  | p :: ps, c :: s => if p = c then afterLeading ps s else none

/-- Modelled from the spec: the parser of the grammar `name[;version=X.Y.Z]`
(sections 3 and 6) of package sbom, which is missing from the source files; a
string with a `;` that `version=` does not follow is malformed. -/
def parseFormatSpec (s : GoString) : Except FormatError FormatSpec :=
  match (splitSemicolon s).2 with
  | none => Except.ok { name := (splitSemicolon s).1, version := none }
  | some rest =>
    match afterLeading (lit "version=") rest with
    | some v => Except.ok { name := (splitSemicolon s).1, version := some v }
    | none => Except.error (FormatError.Malformed s)

/-- Modelled from the spec: the value of a decimal numeral; for the semantic
versions of the registry of package sbom, which is missing from the source files. -/
def decimalValue (s : GoString) : Nat := s.foldl (fun n c => 10 * n + (c - 0x30)) 0

/-- Modelled from the spec: the fields of a version string between its dots
(byte `0x2E`); for the semantic versions of the registry of package sbom, which is
missing from the source files. -/
def splitDots : GoString → List GoString
  | [] => [[]]
  | c :: s =>
    if c = 0x2E then [] :: splitDots s
    else
      match splitDots s with
      | [] => [[c]]
      | f :: fs => (c :: f) :: fs

/-- Modelled from the spec: an identifier of the pre-release part of a semantic
version (section 4.3), numeric or alphanumeric; for the registry of package sbom,
which is missing from the source files. -/
inductive PreId where
  | num (n : Nat)
  | alnum (s : GoString)
  deriving DecidableEq, Repr

/-- Modelled from the spec: a semantic version (section 4.3): the major, minor and
patch numbers and the identifiers of the pre-release part, `none` for a release;
for the registry of package sbom, which is missing from the source files. -/
structure SemVer where
  major : Nat
  minor : Nat
  patch : Nat
  pre : Option (List PreId)
  deriving DecidableEq, Repr

/-- Modelled from the spec: the part of a string before the first occurrence of a
byte and the part after it, if the byte occurs; for the semantic versions of the
registry of package sbom, which is missing from the source files. -/
def splitByte (b : Nat) : GoString → GoString × Option GoString
  | [] => ([], none)
  | c :: s =>
    if c = b then ([], some s)
    else ((c :: (splitByte b s).1), (splitByte b s).2)

/-- Modelled from the spec: whether a string is a non-empty sequence of the digits
`0` to `9`; for the semantic versions of the registry of package sbom, which is
missing from the source files. -/
def isDigits (s : GoString) : Bool :=
  !s.isEmpty && s.all (fun c => decide (0x30 ≤ c) && decide (c ≤ 0x39))

/-- Modelled from the spec: an identifier of a pre-release part, numeric when it
consists of digits and alphanumeric otherwise; for the semantic versions of the
registry of package sbom, which is missing from the source files. -/
def parsePreId (s : GoString) : PreId :=
  if isDigits s then PreId.num (decimalValue s) else PreId.alnum s

/-- Modelled from the spec: the semantic version that a version string denotes
(section 4.3), `none` when it denotes none: build metadata after `+` is dropped,
the part after the first `-` is the pre-release part, a dot-separated sequence
of identifiers, and the part before it is one to three dot-separated numbers, a
missing minor or patch number being zero (the versions `1.3`, `1.4`, `2.2` of
`sbom/sbom_test.go` have two); for the registry of package sbom, which is missing
from the source files. -/
def parseSemver (v : GoString) : Option SemVer :=
  if (splitDots (splitByte 0x2D (splitByte 0x2B v).1).1).length ≤ 3 ∧
      (splitDots (splitByte 0x2D (splitByte 0x2B v).1).1).all isDigits = true then
    some
      { major := decimalValue ((splitDots (splitByte 0x2D (splitByte 0x2B v).1).1).getD 0 [])
        minor := decimalValue ((splitDots (splitByte 0x2D (splitByte 0x2B v).1).1).getD 1 [])
        patch := decimalValue ((splitDots (splitByte 0x2D (splitByte 0x2B v).1).1).getD 2 [])
        pre := (splitByte 0x2D (splitByte 0x2B v).1).2.map
          (fun p => (splitDots p).map parsePreId) }
  else none

/-- Modelled from the spec: the strict lexical order of two strings in ASCII sort
order, by which semantic versioning compares alphanumeric identifiers; for the
registry of package sbom, which is missing from the source files. -/
def bytesLT : GoString → GoString → Bool
  | _, [] => false
  | [], _ :: _ => true
  | x :: xs, y :: ys => decide (x < y) || (decide (x = y) && bytesLT xs ys)

/-- Modelled from the spec: the strict precedence of two pre-release identifiers
in semantic versioning: numeric identifiers by value, alphanumeric identifiers
lexically, and a numeric identifier below an alphanumeric one; for the registry of
package sbom, which is missing from the source files. -/
def PreId.lt : PreId → PreId → Bool
  | PreId.num a, PreId.num b => decide (a < b)
  | PreId.num _, PreId.alnum _ => true
  | PreId.alnum _, PreId.num _ => false
  | PreId.alnum a, PreId.alnum b => bytesLT a b

/-- Modelled from the spec: the precedence of two pre-release parts in semantic
versioning: by the first identifier that differs, and a part that the other
extends is the lower one; for the registry of package sbom, which is missing from
the source files. -/
def preLE : List PreId → List PreId → Bool
  | [], _ => true
  | _ :: _, [] => false
  | x :: xs, y :: ys => x.lt y || (decide (x = y) && preLE xs ys)

/-- Modelled from the spec: the precedence of two versions with the same major,
minor and patch numbers in semantic versioning: a pre-release is below the
release; for the registry of package sbom, which is missing from the source
files. -/
def preOptLE : Option (List PreId) → Option (List PreId) → Bool
  | _, none => true
  | none, some _ => false
  | some a, some b => preLE a b

/-- Modelled from the spec: precedence of semantic versions (section 4.3): by
major, then minor, then patch number, then pre-release part; for the registry of
package sbom, which is missing from the source files. -/
def SemVer.le (a b : SemVer) : Bool :=
  decide (a.major < b.major) ||
    (decide (a.major = b.major) &&
      (decide (a.minor < b.minor) ||
        (decide (a.minor = b.minor) &&
          (decide (a.patch < b.patch) ||
            (decide (a.patch = b.patch) && preOptLE a.pre b.pre)))))

/-- Modelled from the spec: semantic-version ordering of version strings (section
4.3) in the registry of package sbom, which is missing from the source files; a
string that denotes no semantic version is below every string, and two strings
that denote versions of the same precedence (`1.0` and `1.0.0`, or versions that
differ in build metadata only) are each below the other. -/
def semverLE (a b : GoString) : Bool :=
  match parseSemver a, parseSemver b with
  | none, _ => true
  | some _, none => false
  | some x, some y => x.le y

/-- Modelled from the spec: the greatest version under semantic-version ordering
among those registered for a format (section 4.3, step 3) in the registry of
package sbom, which is missing from the source files; among registered strings of
the same precedence the last one is taken. -/
def FormatEntry.latest (e : FormatEntry) : GoString :=
  e.more.foldl (fun best v => if semverLE best v then v else best) e.version

/-- Modelled from the spec: the lookup of a format name in the registry of package
sbom (section 4.3, step 1), which is missing from the source files. -/
def lookupFormat (reg : List FormatEntry) (name : GoString) : Option FormatEntry :=
  reg.find? (fun e => decide (e.name = name))

/-- Modelled from the spec: the resolution of a FormatSpec against the registry of
package sbom (section 4.3), which is missing from the source files: the name must
be registered, a requested version must be exactly one of the registered version
strings, and without a requested version the greatest registered one is taken. -/
def resolveFormat (reg : List FormatEntry) (spec : FormatSpec) :
    Except FormatError ResolvedFormat :=
  match lookupFormat reg spec.name with
  | none => Except.error (FormatError.UnsupportedFormat spec.name)
  | some e =>
    match spec.version with
    | some v =>
      if v ∈ e.versions then
        Except.ok { name := e.name, version := v, extension := e.extension }
      else Except.error (FormatError.UnsupportedVersion spec.name v)
    | none => Except.ok { name := e.name, version := e.latest, extension := e.extension }

/-- Modelled from the spec: the method SBOM.InFormats of package sbom (section
4.5), which is missing from the source files: every format specification is parsed
and resolved in the order of the request, the first failure aborts the call with
its error, and otherwise the resolved formats are returned in the same order. -/
def InFormats (reg : List FormatEntry) : List GoString →
    Except FormatError (List ResolvedFormat)
  | [] => Except.ok []
  | s :: rest =>
    match parseFormatSpec s with
    | Except.error e => Except.error e
    | Except.ok spec =>
      match resolveFormat reg spec with
      | Except.error e => Except.error e
      | Except.ok r =>
        match InFormats reg rest with
        | Except.error e => Except.error e
        | Except.ok rs => Except.ok (r :: rs)

/-- Modelled from the spec: the version that the document of a resolved format
reports (section 4.4), in the fields that `sbom/sbom_test.go` reads: the schema
version of the document with extension `syft.json` and the specVersion of the one
with extension `cdx.json` are the resolved version, and the spdxVersion of the one
with extension `spdx.json` is `SPDX-` followed by the resolved version; the
encoders of package sbom are missing from the source files. -/
def ResolvedFormat.documentVersion (r : ResolvedFormat) : GoString :=
  if r.extension = lit "spdx.json" then lit "SPDX-" ++ r.version else r.version

/-- Modelled from the spec: a registry with the three formats, the versions and the
extensions that `sbom/sbom_test.go` exercises; the names stand for the constants
SyftFormat, CycloneDXFormat and SPDXFormat of package sbom, which is missing from
the source files. -/
def sampleRegistry : List FormatEntry :=
  [{ name := lit "application/vnd.syft+json", version := lit "3.0.1",
     more := [lit "2.0.2"], extension := lit "syft.json" },
   { name := lit "application/vnd.cyclonedx+json", version := lit "1.4",
     more := [lit "1.3"], extension := lit "cdx.json" },
   { name := lit "application/spdx+json", version := lit "2.2",
     more := [], extension := lit "spdx.json" }]

/-! ## Theorems -/

theorem decode_ascii (s0 : Nat) (s : GoString) (h : s0 < 0x80) :
    DecodeRuneInString (s0 :: s) = (s0, 1) := by
  simp [DecodeRuneInString, first, h]

theorem decode_width_pos (s0 : Nat) (s : GoString) :
    1 ≤ (DecodeRuneInString (s0 :: s)).2 := by
  rcases s with _ | ⟨s1, _ | ⟨s2, _ | ⟨s3, r⟩⟩⟩ <;>
    simp only [DecodeRuneInString] <;> split_ifs <;> simp

theorem runesAux_fuel (n : Nat) : ∀ s : GoString, s.length ≤ n →
    runesAux n s = runesAux s.length s := by
  induction n using Nat.strong_induction_on with
  | _ n ih =>
    intro s hs
    cases s with
    | nil => cases n <;> rfl
    | cons s0 s =>
      obtain ⟨m, rfl⟩ : ∃ m, n = m + 1 := ⟨n - 1, by simp at hs; omega⟩
      have hw := decode_width_pos s0 s
      have hlen : ((s0 :: s).drop (DecodeRuneInString (s0 :: s)).2).length ≤ s.length := by
        simp only [List.length_drop, List.length_cons]; omega
      simp only [List.length_cons, runesAux]
      simp only [List.length_cons, Nat.add_le_add_iff_right] at hs
      rw [ih m (Nat.lt_succ_self m) _ (le_trans hlen hs)]
      rw [ih s.length (by omega) _ hlen]

theorem runes_cons (s0 : Nat) (s : GoString) :
    runes (s0 :: s) = (DecodeRuneInString (s0 :: s)).1 ::
      runes ((s0 :: s).drop (DecodeRuneInString (s0 :: s)).2) := by
  have hw := decode_width_pos s0 s
  have hlen : ((s0 :: s).drop (DecodeRuneInString (s0 :: s)).2).length ≤ s.length := by
    simp only [List.length_drop, List.length_cons]; omega
  simp only [runes, List.length_cons, runesAux]
  rw [runesAux_fuel s.length _ hlen]

theorem runes_nil : runes [] = [] := rfl

theorem runes_cons_ascii (s0 : Nat) (s : GoString) (h : s0 < 0x80) :
    runes (s0 :: s) = s0 :: runes s := by
  rw [runes_cons, decode_ascii s0 s h]; rfl

theorem hasUnicode_eq (tbl : Nat → Nat) (rs : List Nat) :
    ∀ t : GoString, hasUnicode tbl rs t = runesFold tbl rs (runes t) := by
  induction rs with
  | nil =>
    intro t
    cases t with
    | nil => rfl
    | cons t0 t => simp [hasUnicode, runes_cons, runesFold]
  | cons sr rs ih =>
    intro t
    cases t with
    | nil => rfl
    | cons t0 t =>
      have hd : (if t0 < RuneSelf then (t0, 1) else DecodeRuneInString (t0 :: t))
          = DecodeRuneInString (t0 :: t) := by
        split_ifs with h
        · exact (decode_ascii t0 t h).symm
        · rfl
      rw [runes_cons t0 t]
      simp only [hasUnicode, hd, runesFold, ih]
      cases runeFold tbl sr (DecodeRuneInString (t0 :: t)).1 <;> simp

theorem EqualFold_eq (tbl : Nat → Nat) (s : GoString) :
    ∀ t : GoString, EqualFold tbl s t = runesFold tbl (runes s) (runes t) := by
  induction s with
  | nil =>
    intro t
    cases t with
    | nil => rfl
    | cons t0 t => simp [EqualFold, runes_cons, runes_nil, runesFold]
  | cons sr s ih =>
    intro t
    cases t with
    | nil => simp [EqualFold, runes_cons, runes_nil, runesFold]
    | cons tr t =>
      by_cases h : RuneSelf ≤ sr ∨ RuneSelf ≤ tr
      · simp only [EqualFold, h, if_true, hasUnicode_eq]
      · have h1 : sr < 0x80 := by simp [RuneSelf] at h; omega
        have h2 : tr < 0x80 := by simp [RuneSelf] at h; omega
        rw [runes_cons_ascii _ _ h1, runes_cons_ascii _ _ h2]
        simp only [EqualFold, h, if_false, runesFold, ih, runeFold]
        by_cases e : tr = sr
        · simp [e]
        · have hhi : (if tr < sr then sr else tr) < RuneSelf := by
            split_ifs <;> simpa [RuneSelf]
          simp only [e, if_false, hhi, if_true]
          split_ifs <;> simp_all

theorem SimpleFold_ascii (tbl : Nat → Nat) (c : Nat) (hc : c < 0x80) :
    SimpleFold tbl c = asciiFold c := by
  have : ¬ MaxRune < c := by simp only [MaxRune]; omega
  simp [SimpleFold, this, hc]

theorem foldKey_lt (c : Nat) (hc : c < 0x80) : foldKey c < 0x80 := by
  unfold foldKey; split_ifs <;> omega

theorem SimpleFold_orbit (tbl : Nat → Nat) (r : Nat)
    (hr : r < 0x80 ∨ r = 0x17F ∨ r = 0x212A) :
    SimpleFold tbl r = SimpleFold (fun x => x) r ∧
      (SimpleFold tbl r < 0x80 ∨ SimpleFold tbl r = 0x17F ∨ SimpleFold tbl r = 0x212A) := by
  rcases hr with h | rfl | rfl
  · rw [SimpleFold_ascii tbl r h, SimpleFold_ascii _ r h]
    refine ⟨rfl, ?_⟩
    unfold asciiFold; split_ifs <;> omega
  · simp [SimpleFold, MaxRune]
  · simp [SimpleFold, MaxRune]

theorem foldLoop_orbit (tbl : Nat → Nat) (sr tr : Nat) (n : Nat) :
    ∀ r, (r < 0x80 ∨ r = 0x17F ∨ r = 0x212A) →
      foldLoop tbl n sr tr r = foldLoop (fun x => x) n sr tr r ∧
        (foldLoop tbl n sr tr r < 0x80 ∨ foldLoop tbl n sr tr r = 0x17F ∨
          foldLoop tbl n sr tr r = 0x212A) := by
  induction n with
  | zero => intro r hr; exact ⟨rfl, hr⟩
  | succ n ih =>
    intro r hr
    obtain ⟨h1, h2⟩ := SimpleFold_orbit tbl r hr
    simp only [foldLoop]
    split_ifs with h
    · rw [h1]
      have := ih (SimpleFold (fun x => x) r) (h1 ▸ h2)
      exact this
    · exact ⟨rfl, hr⟩

theorem foldLoop_17F : ∀ c, c < 0x80 →
    (foldLoop (fun x => x) 0x17F c 0x17F (SimpleFold (fun x => x) c) = 0x17F ↔
      foldKey 0x17F = foldKey c) := by
  decide

theorem foldLoop_212A : ∀ c, c < 0x80 →
    (foldLoop (fun x => x) 0x212A c 0x212A (SimpleFold (fun x => x) c) = 0x212A ↔
      foldKey 0x212A = foldKey c) := by
  decide

theorem foldLoop_ascii (tbl : Nat → Nat) (c y : Nat) (hc : c < 0x80) (hy : 0x80 ≤ y) :
    foldLoop tbl y c y (SimpleFold tbl c) = y ↔ foldKey y = foldKey c := by
  obtain ⟨h1, h2⟩ := SimpleFold_orbit tbl c (Or.inl hc)
  obtain ⟨h3, h4⟩ := foldLoop_orbit tbl c y y (SimpleFold tbl c) h2
  by_cases e1 : y = 0x17F
  · subst e1; rw [h3, h1]; exact foldLoop_17F c hc
  by_cases e2 : y = 0x212A
  · subst e2; rw [h3, h1]; exact foldLoop_212A c hc
  have hk := foldKey_lt c hc
  have hky : foldKey y = y := by
    unfold foldKey; split_ifs <;> omega
  constructor
  · intro h; omega
  · intro h; omega

theorem SimpleFold_ascii_cycle : ∀ c, c < 0x80 →
    (SimpleFold (fun x => x) c = c ∨
      SimpleFold (fun x => x) (SimpleFold (fun x => x) c) = c ∨
      SimpleFold (fun x => x)
        (SimpleFold (fun x => x) (SimpleFold (fun x => x) c)) = c) := by
  decide

theorem foldLoop_three (tbl : Nat → Nat) (m sr tr r : Nat)
    (h : r = sr ∨ SimpleFold tbl r = sr ∨ SimpleFold tbl (SimpleFold tbl r) = sr) :
    ¬ (foldLoop tbl (m + 3) sr tr r ≠ sr ∧ foldLoop tbl (m + 3) sr tr r < tr) := by
  simp only [foldLoop]
  split_ifs with h1 h2 h3
  · rcases h with h | h | h
    · exact absurd h h1.1
    · exact absurd h h2.1
    · exact absurd h h3.1
  · exact h3
  · exact h2
  · exact h1

/-- The bound on the iterations of `foldLoop` is not what ends the loop when the
smaller rune is ASCII, as it is in every comparison that GetBOMChecksumAlgorithm
makes: the loop ends because its condition fails. -/
theorem foldLoop_ascii_exits (tbl : Nat → Nat) (c y : Nat) (hc : c < 0x80) (hy : 0x80 ≤ y) :
    ¬ (foldLoop tbl y c y (SimpleFold tbl c) ≠ c ∧
        foldLoop tbl y c y (SimpleFold tbl c) < y) := by
  obtain ⟨m, rfl⟩ : ∃ m, y = m + 3 := ⟨y - 3, by omega⟩
  apply foldLoop_three
  obtain ⟨h1, h2⟩ := SimpleFold_orbit tbl c (Or.inl hc)
  obtain ⟨h3, h4⟩ := SimpleFold_orbit tbl (SimpleFold tbl c) h2
  obtain ⟨h5, _⟩ := SimpleFold_orbit tbl (SimpleFold tbl (SimpleFold tbl c)) h4
  have := SimpleFold_ascii_cycle c hc
  rw [h5, h3, h1]
  exact this

theorem runeFold_ascii (tbl : Nat → Nat) (c y : Nat) (hc : c < 0x80) :
    runeFold tbl c y = decide (foldKey y = foldKey c) := by
  unfold runeFold
  by_cases e : y = c
  · simp [e]
  · simp only [e, if_false]
    by_cases hy : 0x80 ≤ y
    · have h1 : ¬ y < c := by omega
      have h2 : ¬ y < RuneSelf := by simp only [RuneSelf]; omega
      simp only [h1, if_false, h2]
      exact decide_eq_decide.mpr (foldLoop_ascii tbl c y hc hy)
    · have h2 : (if y < c then c else y) < RuneSelf := by
        simp only [RuneSelf]; split_ifs <;> omega
      simp only [h2, if_true]
      apply decide_eq_decide.mpr
      unfold foldKey
      split_ifs <;> omega

/-! ### ASCII strings against arbitrary strings -/

theorem runes_ascii : ∀ a : GoString, (∀ c ∈ a, c < 0x80) → runes a = a := by
  intro a
  induction a with
  | nil => intro _; rfl
  | cons c a ih =>
    intro h
    rw [runes_cons_ascii c a (h c (List.mem_cons_self c a)),
      ih (fun x hx => h x (List.mem_cons_of_mem c hx))]

theorem runesFold_ascii (tbl : Nat → Nat) :
    ∀ a : List Nat, (∀ c ∈ a, c < 0x80) →
      ∀ rs, runesFold tbl a rs = decide (rs.map foldKey = a.map foldKey) := by
  intro a
  induction a with
  | nil =>
    intro _ rs
    cases rs <;> simp [runesFold]
  | cons c a ih =>
    intro h rs
    cases rs with
    | nil => simp [runesFold]
    | cons y rs =>
      simp only [runesFold, runeFold_ascii tbl c y (h c (List.mem_cons_self c a)),
        ih (fun x hx => h x (List.mem_cons_of_mem c hx)) rs, List.map_cons, List.cons.injEq]
      by_cases e1 : foldKey y = foldKey c <;> simp [e1]

theorem EqualFold_ascii (tbl : Nat → Nat) (a s : GoString) (ha : ∀ c ∈ a, c < 0x80) :
    EqualFold tbl a s = decide (foldKeys s = foldKeys a) := by
  rw [EqualFold_eq, runes_ascii a ha, runesFold_ascii tbl a ha]
  simp only [foldKeys, runes_ascii a ha]

theorem ReplaceAll_scan_single (c : Nat) :
    ∀ s : GoString, ReplaceAll.scan [c] [] 0 s = s.filter (fun x => x ≠ c) := by
  intro s
  induction s with
  | nil => rfl
  | cons x s ih =>
    by_cases e : x = c
    · subst e
      simp [ReplaceAll.scan, List.isPrefixOf, ih]
    · have e2 : ¬ c = x := fun h => e h.symm
      simp [ReplaceAll.scan, List.isPrefixOf, ih, e, e2]

theorem ReplaceAll_hyphen (s : GoString) :
    ReplaceAll s (lit "-") (lit "") = stripHyphens s := by
  have h1 : lit "-" = [0x2D] := by decide
  have h2 : lit "" = [] := by decide
  rw [h1, h2]
  simp [ReplaceAll, stripHyphens, ReplaceAll_scan_single]

theorem candidates_ascii : ∀ a ∈ candidates, ∀ c ∈ a, c < 0x80 := by decide

theorem stripHyphens_ascii (a : GoString) (h : ∀ c ∈ a, c < 0x80) :
    ∀ c ∈ stripHyphens a, c < 0x80 := by
  intro c hc
  exact h c (List.mem_of_mem_filter hc)

theorem matchesCandidate_eq_spec (tbl : Nat → Nat) (a alg : GoString) :
    matchesCandidate tbl a alg = specMatches tbl a alg := by
  simp only [matchesCandidate, specMatches, ReplaceAll_hyphen]

theorem specMatches_eq_key (tbl : Nat → Nat) (a alg : GoString) (ha : ∀ c ∈ a, c < 0x80) :
    specMatches tbl a alg = keyMatches a alg := by
  simp only [specMatches, keyMatches, EqualFold_ascii tbl a alg ha,
    EqualFold_ascii tbl (stripHyphens a) alg (stripHyphens_ascii a ha)]

theorem matchesCandidate_eq_key (tbl : Nat → Nat) (a alg : GoString) (ha : a ∈ candidates) :
    matchesCandidate tbl a alg = keyMatches a alg := by
  rw [matchesCandidate_eq_spec, specMatches_eq_key tbl a alg (candidates_ascii a ha)]

/-! ### The loop of the resolver -/

theorem loop_eq_find (tbl : Nat → Nat) (alg : GoString) (l : List GoString) :
    GetBOMChecksumAlgorithm.loop tbl alg l =
      match l.find? (fun a => matchesCandidate tbl a alg) with
      | some a => ({ name := a }, none)
      | none => ({ name := [] }, some (invalidAlgorithmError alg)) := by
  induction l with
  | nil => rfl
  | cons a l ih =>
    by_cases h : matchesCandidate tbl a alg = true
    · simp [GetBOMChecksumAlgorithm.loop, List.find?, h]
    · simp only [Bool.not_eq_true] at h
      simp [GetBOMChecksumAlgorithm.loop, List.find?, h, ih]

theorem loop_congr (tbl tbl2 : Nat → Nat) (alg : GoString) (l : List GoString)
    (h : ∀ a ∈ l, matchesCandidate tbl a alg = matchesCandidate tbl2 a alg) :
    GetBOMChecksumAlgorithm.loop tbl alg l = GetBOMChecksumAlgorithm.loop tbl2 alg l := by
  induction l with
  | nil => rfl
  | cons a l ih =>
    simp only [GetBOMChecksumAlgorithm.loop, h a (List.mem_cons_self a l),
      ih (fun x hx => h x (List.mem_cons_of_mem a hx))]

theorem GetBOM_table_free (tbl : Nat → Nat) (alg : GoString) :
    GetBOMChecksumAlgorithm tbl alg = GetBOMChecksumAlgorithm (fun x => x) alg := by
  apply loop_congr
  intro a ha
  rw [matchesCandidate_eq_key tbl a alg ha, matchesCandidate_eq_key _ a alg ha]

theorem candidates_perm : candidates.Perm canonicalNames := by decide

theorem mem_candidates_iff (a : GoString) : a ∈ candidates ↔ a ∈ canonicalNames :=
  candidates_perm.mem_iff

theorem keys_unique : ∀ a ∈ candidates, ∀ b ∈ candidates,
    (foldKeys a = foldKeys b ∨ foldKeys a = foldKeys (stripHyphens b) ∨
      foldKeys (stripHyphens a) = foldKeys b ∨
      foldKeys (stripHyphens a) = foldKeys (stripHyphens b)) → a = b := by
  decide

theorem keyMatches_unique (s a b : GoString) (ha : a ∈ candidates) (hb : b ∈ candidates)
    (h1 : keyMatches a s = true) (h2 : keyMatches b s = true) : a = b := by
  simp only [keyMatches, Bool.or_eq_true, decide_eq_true_eq] at h1 h2
  apply keys_unique a ha b hb
  rcases h1 with h1 | h1 <;> rcases h2 with h2 | h2
  · exact Or.inl (h1.symm.trans h2)
  · exact Or.inr (Or.inl (h1.symm.trans h2))
  · exact Or.inr (Or.inr (Or.inl (h1.symm.trans h2)))
  · exact Or.inr (Or.inr (Or.inr (h1.symm.trans h2)))

theorem matchesCandidate_unique (tbl : Nat → Nat) (s a b : GoString)
    (ha : a ∈ candidates) (hb : b ∈ candidates)
    (h1 : matchesCandidate tbl a s = true) (h2 : matchesCandidate tbl b s = true) : a = b := by
  rw [matchesCandidate_eq_key tbl a s ha] at h1
  rw [matchesCandidate_eq_key tbl b s hb] at h2
  exact keyMatches_unique s a b ha hb h1 h2

theorem find_eq_of_unique {α : Type} (p : α → Bool) (l1 l2 : List α)
    (hmem : ∀ a, a ∈ l1 ↔ a ∈ l2)
    (huniq : ∀ a ∈ l1, ∀ b ∈ l1, p a = true → p b = true → a = b) :
    l1.find? p = l2.find? p := by
  cases h1 : l1.find? p with
  | none =>
    rw [List.find?_eq_none] at h1
    symm
    rw [List.find?_eq_none]
    intro x hx
    exact h1 x ((hmem x).mpr hx)
  | some a =>
    have ha1 : a ∈ l1 := List.mem_of_find?_eq_some h1
    have hpa : p a = true := List.find?_some h1
    cases h2 : l2.find? p with
    | none =>
      rw [List.find?_eq_none] at h2
      exact absurd hpa (h2 a ((hmem a).mp ha1))
    | some b =>
      have hb2 : b ∈ l2 := List.mem_of_find?_eq_some h2
      have hpb : p b = true := List.find?_some h2
      rw [huniq a ha1 b ((hmem b).mpr hb2) hpa hpb]

theorem loop_perm (tbl : Nat → Nat) (s : GoString) (l : List GoString)
    (hl : ∀ a, a ∈ l ↔ a ∈ candidates) :
    GetBOMChecksumAlgorithm.loop tbl s l = GetBOMChecksumAlgorithm tbl s := by
  unfold GetBOMChecksumAlgorithm
  rw [loop_eq_find, loop_eq_find]
  rw [find_eq_of_unique (fun a => matchesCandidate tbl a s) l candidates hl]
  intro a ha b hb h1 h2
  exact matchesCandidate_unique tbl s a b ((hl a).mp ha) ((hl b).mp hb) h1 h2

theorem GetBOM_cases (tbl : Nat → Nat) (s : GoString) :
    (∃ a ∈ candidates, matchesCandidate tbl a s = true ∧
        GetBOMChecksumAlgorithm tbl s = ({ name := a }, none)) ∨
      ((∀ a ∈ candidates, matchesCandidate tbl a s = false) ∧
        GetBOMChecksumAlgorithm tbl s = ({ name := [] }, some (invalidAlgorithmError s))) := by
  unfold GetBOMChecksumAlgorithm
  rw [loop_eq_find]
  cases h : candidates.find? (fun a => matchesCandidate tbl a s) with
  | none =>
    right
    rw [List.find?_eq_none] at h
    exact ⟨fun a ha => by simpa using h a ha, rfl⟩
  | some a =>
    left
    have hp : matchesCandidate tbl a s = true :=
      @List.find?_some _ (fun a => matchesCandidate tbl a s) a candidates h
    exact ⟨a, List.mem_of_find?_eq_some h, hp, rfl⟩

/-! ### Claims about the resolver -/

theorem canonical_spellings_id : ∀ A ∈ canonicalNames,
    GetBOMChecksumAlgorithm (fun x => x) A = ({ name := A }, none) ∧
    GetBOMChecksumAlgorithm (fun x => x) (asciiToLower A) = ({ name := A }, none) ∧
    GetBOMChecksumAlgorithm (fun x => x) (stripHyphens A) = ({ name := A }, none) ∧
    GetBOMChecksumAlgorithm (fun x => x) (stripHyphens (asciiToLower A)) =
      ({ name := A }, none) := by
  decide

/-- C1: on each of the twelve canonical names `A`, GetBOMChecksumAlgorithm succeeds
on `A`, on `A` in lower case, on `A` without its hyphens and on `A` in lower case
without its hyphens; the four calls return the same value, and its String() is `A`. -/
theorem GetBOMChecksumAlgorithm_canonical_spellings (tbl : Nat → Nat) (A : GoString)
    (hA : A ∈ canonicalNames) :
    GetBOMChecksumAlgorithm tbl A = ({ name := A }, none) ∧
    GetBOMChecksumAlgorithm tbl (asciiToLower A) = ({ name := A }, none) ∧
    GetBOMChecksumAlgorithm tbl (stripHyphens A) = ({ name := A }, none) ∧
    GetBOMChecksumAlgorithm tbl (stripHyphens (asciiToLower A)) = ({ name := A }, none) ∧
    (GetBOMChecksumAlgorithm tbl A).1.String = A := by
  have h := canonical_spellings_id A hA
  rw [GetBOM_table_free tbl A, GetBOM_table_free tbl (asciiToLower A),
    GetBOM_table_free tbl (stripHyphens A),
    GetBOM_table_free tbl (stripHyphens (asciiToLower A))]
  refine ⟨h.1, h.2.1, h.2.2.1, h.2.2.2, ?_⟩
  rw [h.1]
  rfl

/-- Witness of C1 at the name SHA-256, whose lower-case form without hyphens is
the input `sha256`. -/
theorem GetBOMChecksumAlgorithm_canonical_spellings_witness :
    SHA256 ∈ canonicalNames ∧
    stripHyphens (asciiToLower SHA256) = lit "sha256" ∧
    GetBOMChecksumAlgorithm (fun x => x) (lit "SHA-256") = ({ name := lit "SHA-256" }, none) ∧
    GetBOMChecksumAlgorithm (fun x => x) (lit "sha256") = ({ name := lit "SHA-256" }, none) :=
  ⟨by decide, by decide,
    (GetBOMChecksumAlgorithm_canonical_spellings (fun x => x) SHA256 (by decide)).1,
    (GetBOMChecksumAlgorithm_canonical_spellings (fun x => x) SHA256 (by decide)).2.2.2.1⟩

theorem rejectedExamples_id : ∀ e ∈ rejectedExamples,
    (GetBOMChecksumAlgorithm (fun x => x) e).2 ≠ none := by
  decide

theorem mem_acceptedKeys (s : GoString) :
    foldKeys s ∈ acceptedKeys ↔ ∃ a ∈ canonicalNames, keyMatches a s = true := by
  simp only [acceptedKeys, List.mem_append, List.mem_map, keyMatches, Bool.or_eq_true,
    decide_eq_true_eq]
  constructor
  · rintro (⟨a, ha, h⟩ | ⟨a, ha, h⟩)
    · exact ⟨a, ha, Or.inl h.symm⟩
    · exact ⟨a, ha, Or.inr h.symm⟩
  · rintro ⟨a, ha, h | h⟩
    · exact Or.inl ⟨a, ha, h.symm⟩
    · exact Or.inr ⟨a, ha, h.symm⟩

theorem error_iff_no_match (tbl : Nat → Nat) (s : GoString) :
    (GetBOMChecksumAlgorithm tbl s).2 ≠ none ↔
      ∀ a ∈ candidates, matchesCandidate tbl a s = false := by
  rcases GetBOM_cases tbl s with ⟨a, ha, hm, h⟩ | ⟨hno, h⟩
  · rw [h]
    constructor
    · intro hne; exact absurd rfl hne
    · intro hall
      rw [hall a ha] at hm
      exact absurd hm (by decide)
  · rw [h]
    exact ⟨fun _ => hno, fun _ => by simp⟩

/-- C2: GetBOMChecksumAlgorithm returns an error exactly when the input is equal
under case folding to none of the twelve canonical names and to none of them with
its hyphens removed, that is, exactly when the folding key of the input is not one
of the accepted keys; no other normalisation applies: inputs with surrounding
blanks, prefixes, extensions, doubled, moved or extra hyphens, underscores, and
`not-an-algorithm` and the empty string, are rejected. -/
theorem GetBOMChecksumAlgorithm_error_iff (tbl : Nat → Nat) (s : GoString) :
    ((GetBOMChecksumAlgorithm tbl s).2 ≠ none ↔
      ∀ a ∈ canonicalNames,
        EqualFold tbl a s = false ∧ EqualFold tbl (stripHyphens a) s = false) ∧
    ((GetBOMChecksumAlgorithm tbl s).2 ≠ none ↔ foldKeys s ∉ acceptedKeys) ∧
    (∀ e ∈ rejectedExamples, (GetBOMChecksumAlgorithm tbl e).2 ≠ none) ∧
    (GetBOMChecksumAlgorithm tbl (lit "not-an-algorithm")).2 ≠ none ∧
    (GetBOMChecksumAlgorithm tbl (lit "")).2 ≠ none := by
  have hex : ∀ e ∈ rejectedExamples, (GetBOMChecksumAlgorithm tbl e).2 ≠ none := by
    intro e he
    rw [GetBOM_table_free tbl e]
    exact rejectedExamples_id e he
  refine ⟨?_, ?_, hex, hex _ (by decide), hex _ (by decide)⟩
  · rw [error_iff_no_match]
    constructor
    · intro h a ha
      have := h a ((mem_candidates_iff a).mpr ha)
      rw [matchesCandidate_eq_spec] at this
      simpa [specMatches] using this
    · intro h a ha
      have := h a ((mem_candidates_iff a).mp ha)
      rw [matchesCandidate_eq_spec]
      simpa [specMatches] using this
  · rw [error_iff_no_match, mem_acceptedKeys]
    constructor
    · rintro h ⟨a, ha, hk⟩
      have hc := (mem_candidates_iff a).mpr ha
      have := h a hc
      rw [matchesCandidate_eq_key tbl a s hc, hk] at this
      exact absurd this (by decide)
    · intro h a ha
      rw [matchesCandidate_eq_key tbl a s ha]
      cases hk : keyMatches a s with
      | false => rfl
      | true => exact absurd ⟨a, (mem_candidates_iff a).mp ha, hk⟩ h

/-- C3: when GetBOMChecksumAlgorithm succeeds with the value `v`, the stored name
of `v` is one of the twelve canonical strings, and the input is equal under case
folding to that name or to that name with its hyphens removed. -/
theorem GetBOMChecksumAlgorithm_success_name (tbl : Nat → Nat) (s : GoString)
    (v : checksumAlgorithm) (h : GetBOMChecksumAlgorithm tbl s = (v, none)) :
    v.name ∈ canonicalNames ∧
      (EqualFold tbl v.name s = true ∨ EqualFold tbl (stripHyphens v.name) s = true) := by
  rcases GetBOM_cases tbl s with ⟨a, ha, hm, h2⟩ | ⟨_, h2⟩
  · rw [h2] at h
    have hv : v = { name := a } := (congrArg Prod.fst h).symm
    subst hv
    refine ⟨(mem_candidates_iff a).mp ha, ?_⟩
    rw [matchesCandidate_eq_spec] at hm
    simpa [specMatches] using hm
  · rw [h2] at h
    exact absurd (congrArg Prod.snd h) (by simp)

/-- Witness of C3 at the input `sha256`. -/
theorem GetBOMChecksumAlgorithm_success_name_witness :
    GetBOMChecksumAlgorithm (fun x => x) (lit "sha256") = ({ name := lit "SHA-256" }, none) ∧
    (lit "SHA-256" ∈ canonicalNames ∧
      (EqualFold (fun x => x) (lit "SHA-256") (lit "sha256") = true ∨
        EqualFold (fun x => x) (stripHyphens (lit "SHA-256")) (lit "sha256") = true)) :=
  ⟨by decide,
    GetBOMChecksumAlgorithm_success_name (fun x => x) (lit "sha256")
      { name := lit "SHA-256" } (by decide)⟩

/-- Counterexample to C4: on the input `not-an-algorithm` the function returns,
with the error, the zero value, whose stored name is the empty string and none of
the twelve canonical strings. -/
theorem GetBOMChecksumAlgorithm_zero_value_on_error :
    ¬ (∀ (tbl : Nat → Nat) (s : GoString),
        (GetBOMChecksumAlgorithm tbl s).1.name ∈ canonicalNames) ∧
    (∀ tbl : Nat → Nat,
      (GetBOMChecksumAlgorithm tbl (lit "not-an-algorithm")).1.String = lit "" ∧
      (GetBOMChecksumAlgorithm tbl (lit "not-an-algorithm")).2 ≠ none) ∧
    lit "" ∉ canonicalNames := by
  have h0 : (GetBOMChecksumAlgorithm (fun x => x) (lit "not-an-algorithm")).1.String = lit "" ∧
      (GetBOMChecksumAlgorithm (fun x => x) (lit "not-an-algorithm")).2 ≠ none := by
    decide
  refine ⟨?_, ?_, by decide⟩
  · intro h
    exact absurd (h (fun x => x) (lit "not-an-algorithm")) (by decide)
  · intro tbl
    rw [GetBOM_table_free tbl]
    exact h0

/-- C4, amended: the value that GetBOMChecksumAlgorithm returns has a stored name,
and a String(), that is one of the twelve canonical strings when no error
accompanies it, and that is the empty string when an error accompanies it. -/
theorem GetBOMChecksumAlgorithm_name_canonical_or_empty (tbl : Nat → Nat) (s : GoString) :
    ((GetBOMChecksumAlgorithm tbl s).2 = none ∧
        (GetBOMChecksumAlgorithm tbl s).1.name ∈ canonicalNames ∧
        (GetBOMChecksumAlgorithm tbl s).1.String ∈ canonicalNames) ∨
      ((GetBOMChecksumAlgorithm tbl s).2 ≠ none ∧
        (GetBOMChecksumAlgorithm tbl s).1.name = [] ∧
        (GetBOMChecksumAlgorithm tbl s).1.String = []) := by
  rcases GetBOM_cases tbl s with ⟨a, ha, _, h⟩ | ⟨_, h⟩
  · left
    rw [h]
    exact ⟨rfl, (mem_candidates_iff a).mp ha, (mem_candidates_iff a).mp ha⟩
  · right
    rw [h]
    exact ⟨by simp, rfl, rfl⟩

/-- C5: GetBOMChecksumAlgorithm returns what the reference resolver of the
specification returns, which tries the candidates in the declaration order MD5,
SHA-1, SHA-256, ..., BLAKE3 and takes the first that matches the input
case-insensitively with or without its hyphens. -/
theorem GetBOMChecksumAlgorithm_refines_spec (tbl : Nat → Nat) (s : GoString) :
    GetBOMChecksumAlgorithm tbl s = specReturn (specResolve tbl s) := by
  unfold GetBOMChecksumAlgorithm specResolve
  rw [loop_eq_find]
  have hfun : (fun a => matchesCandidate tbl a s) = (fun a => specMatches tbl a s) := by
    funext a
    exact matchesCandidate_eq_spec tbl a s
  have hfind : candidates.find? (fun a => specMatches tbl a s) =
      canonicalNames.find? (fun a => specMatches tbl a s) := by
    apply find_eq_of_unique _ _ _ mem_candidates_iff
    intro a ha b hb h1 h2
    rw [← matchesCandidate_eq_spec] at h1 h2
    exact matchesCandidate_unique tbl s a b ha hb h1 h2
  rw [hfun, hfind]
  cases canonicalNames.find? (fun a => specMatches tbl a s) <;> rfl

/-- C6: for every input at most one of the twelve candidates passes the match
test, no two canonical names have the same folding key with or without their
hyphens, and the loop of GetBOMChecksumAlgorithm returns the same result in
whatever order the candidates are tried. -/
theorem GetBOMChecksumAlgorithm_order_independent (tbl : Nat → Nat) (s : GoString) :
    (∀ a ∈ candidates, ∀ b ∈ candidates,
      matchesCandidate tbl a s = true → matchesCandidate tbl b s = true → a = b) ∧
    (∀ a ∈ canonicalNames, ∀ b ∈ canonicalNames,
      (foldKeys a = foldKeys b ∨ foldKeys a = foldKeys (stripHyphens b) ∨
        foldKeys (stripHyphens a) = foldKeys b ∨
        foldKeys (stripHyphens a) = foldKeys (stripHyphens b)) → a = b) ∧
    (∀ l : List GoString, l.Perm candidates →
      GetBOMChecksumAlgorithm.loop tbl s l = GetBOMChecksumAlgorithm tbl s) := by
  refine ⟨?_, ?_, ?_⟩
  · intro a ha b hb h1 h2
    exact matchesCandidate_unique tbl s a b ha hb h1 h2
  · intro a ha b hb h
    exact keys_unique a ((mem_candidates_iff a).mpr ha) b ((mem_candidates_iff b).mpr hb) h
  · intro l hl
    exact loop_perm tbl s l (fun a => hl.mem_iff)

/-! ### Case folding of the input -/

theorem runeFold_symm (tbl : Nat → Nat) (x y : Nat) : runeFold tbl x y = runeFold tbl y x := by
  unfold runeFold
  by_cases e : y = x
  · subst e; rfl
  · have e2 : ¬ x = y := fun h => e h.symm
    simp only [e, e2, if_false]
    by_cases h : y < x
    · have h2 : ¬ x < y := by omega
      simp only [h, h2, if_true, if_false]
    · have h2 : x < y := by omega
      simp only [h, h2, if_true, if_false]

theorem foldLoop_closed (tbl : Nat → Nat) (htbl : OrbitsClosed tbl) (sr tr : Nat) (n : Nat) :
    ∀ r, (0x80 ≤ r ∧ r ≠ 0x17F ∧ r ≠ 0x212A) →
      (0x80 ≤ foldLoop tbl n sr tr r ∧ foldLoop tbl n sr tr r ≠ 0x17F ∧
        foldLoop tbl n sr tr r ≠ 0x212A) := by
  induction n with
  | zero => intro r hr; exact hr
  | succ n ih =>
    intro r hr
    simp only [foldLoop]
    split_ifs with h
    · apply ih
      unfold SimpleFold
      split_ifs with h1 h2 h3 h4
      · exact hr
      · omega
      · exact absurd h3 hr.2.1
      · exact absurd h4 hr.2.2
      · exact htbl r hr.1 hr.2.1 hr.2.2
    · exact hr

theorem foldLoop_17F_212A :
    foldLoop (fun x => x) 0x212A 0x17F 0x212A (SimpleFold (fun x => x) 0x17F) ≠ 0x212A := by
  decide

theorem foldLoop_plain (tbl : Nat → Nat) (htbl : OrbitsClosed tbl) (lo hi : Nat)
    (hlo : 0x80 ≤ lo) (hlt : lo < hi)
    (h : foldLoop tbl hi lo hi (SimpleFold tbl lo) = hi) :
    foldKey lo = lo ∧ foldKey hi = hi := by
  have key : (lo ≠ 0x17F ∧ lo ≠ 0x212A) ∧ (hi ≠ 0x17F ∧ hi ≠ 0x212A) := by
    by_cases hs : lo = 0x17F ∨ lo = 0x212A
    · exfalso
      obtain ⟨h1, h2⟩ := SimpleFold_orbit tbl lo (Or.inr hs)
      obtain ⟨h3, h4⟩ := foldLoop_orbit tbl lo hi hi (SimpleFold tbl lo) h2
      rw [h] at h4
      have hhi : hi = 0x212A := by omega
      have hlo2 : lo = 0x17F := by omega
      subst hhi hlo2
      rw [h3, h1] at h
      exact foldLoop_17F_212A h
    · have hs1 : lo ≠ 0x17F := fun e => hs (Or.inl e)
      have hs2 : lo ≠ 0x212A := fun e => hs (Or.inr e)
      refine ⟨⟨hs1, hs2⟩, ?_⟩
      have h0 : 0x80 ≤ SimpleFold tbl lo ∧ SimpleFold tbl lo ≠ 0x17F ∧
          SimpleFold tbl lo ≠ 0x212A := by
        unfold SimpleFold
        split_ifs with h1 h2
        · exact ⟨hlo, hs1, hs2⟩
        · omega
        · exact htbl lo hlo hs1 hs2
      have := foldLoop_closed tbl htbl lo hi hi (SimpleFold tbl lo) h0
      rw [h] at this
      exact ⟨this.2.1, this.2.2⟩
  obtain ⟨⟨a1, a2⟩, b1, b2⟩ := key
  constructor
  · unfold foldKey; split_ifs <;> omega
  · unfold foldKey; split_ifs <;> omega

theorem runeFold_key (tbl : Nat → Nat) (htbl : OrbitsClosed tbl) (x y : Nat)
    (h : runeFold tbl x y = true) :
    foldKey x = foldKey y ∨ (0x80 ≤ foldKey x ∧ 0x80 ≤ foldKey y) := by
  by_cases hx : x < 0x80
  · rw [runeFold_ascii tbl x y hx] at h
    exact Or.inl (of_decide_eq_true h).symm
  by_cases hy : y < 0x80
  · rw [runeFold_symm, runeFold_ascii tbl y x hy] at h
    exact Or.inl (of_decide_eq_true h)
  by_cases e : y = x
  · exact Or.inl (by rw [e])
  right
  unfold runeFold at h
  simp only [e, if_false] at h
  by_cases hlt : y < x
  · have h2 : ¬ x < RuneSelf := by simp only [RuneSelf]; omega
    simp only [hlt, if_true, h2, if_false] at h
    have := foldLoop_plain tbl htbl y x (by omega) hlt (of_decide_eq_true h)
    omega
  · have h2 : ¬ y < RuneSelf := by simp only [RuneSelf]; omega
    simp only [hlt, if_false, h2] at h
    have := foldLoop_plain tbl htbl x y (by omega) (by omega) (of_decide_eq_true h)
    omega

theorem runesFold_keys (tbl : Nat → Nat) (htbl : OrbitsClosed tbl) :
    ∀ xs ys : List Nat, runesFold tbl xs ys = true →
      ∀ ks : List Nat, (∀ k ∈ ks, k < 0x80) →
        (xs.map foldKey = ks ↔ ys.map foldKey = ks) := by
  intro xs
  induction xs with
  | nil =>
    intro ys h ks _
    cases ys with
    | nil => exact Iff.rfl
    | cons y ys => simp [runesFold] at h
  | cons x xs ih =>
    intro ys h ks hks
    cases ys with
    | nil => simp [runesFold] at h
    | cons y ys =>
      simp only [runesFold, Bool.and_eq_true] at h
      cases ks with
      | nil => simp
      | cons k ks =>
        have hk : k < 0x80 := hks k (List.mem_cons_self k ks)
        have hrest := ih ys h.2 ks (fun z hz => hks z (List.mem_cons_of_mem k hz))
        have hkey := runeFold_key tbl htbl x y h.1
        simp only [List.map_cons, List.cons.injEq]
        constructor
        · rintro ⟨h1, h2⟩
          exact ⟨by omega, hrest.mp h2⟩
        · rintro ⟨h1, h2⟩
          exact ⟨by omega, hrest.mpr h2⟩

theorem foldKeys_ascii_lt (a : GoString) (ha : ∀ c ∈ a, c < 0x80) :
    ∀ k ∈ foldKeys a, k < 0x80 := by
  intro k hk
  rw [foldKeys, runes_ascii a ha, List.mem_map] at hk
  obtain ⟨c, hc, rfl⟩ := hk
  exact foldKey_lt c (ha c hc)

theorem keyMatches_of_EqualFold (tbl : Nat → Nat) (htbl : OrbitsClosed tbl) (s t : GoString)
    (h : EqualFold tbl s t = true) (a : GoString) (ha : ∀ c ∈ a, c < 0x80) :
    keyMatches a s = keyMatches a t := by
  rw [EqualFold_eq] at h
  have h1 := runesFold_keys tbl htbl _ _ h (foldKeys a) (foldKeys_ascii_lt a ha)
  have h2 := runesFold_keys tbl htbl _ _ h (foldKeys (stripHyphens a))
    (foldKeys_ascii_lt _ (stripHyphens_ascii a ha))
  unfold keyMatches
  have e1 : decide (foldKeys s = foldKeys a) = decide (foldKeys t = foldKeys a) :=
    decide_eq_decide.mpr h1
  have e2 : decide (foldKeys s = foldKeys (stripHyphens a)) =
      decide (foldKeys t = foldKeys (stripHyphens a)) := decide_eq_decide.mpr h2
  rw [e1, e2]

theorem loop_fold_invariant (tbl : Nat → Nat) (s t : GoString) (l : List GoString)
    (h : ∀ a ∈ l, matchesCandidate tbl a s = matchesCandidate tbl a t) :
    (GetBOMChecksumAlgorithm.loop tbl s l).1 = (GetBOMChecksumAlgorithm.loop tbl t l).1 ∧
    ((GetBOMChecksumAlgorithm.loop tbl s l).2 = none ↔
      (GetBOMChecksumAlgorithm.loop tbl t l).2 = none) := by
  induction l with
  | nil => simp [GetBOMChecksumAlgorithm.loop]
  | cons a l ih =>
    have ha := h a (List.mem_cons_self a l)
    have ih2 := ih (fun x hx => h x (List.mem_cons_of_mem a hx))
    simp only [GetBOMChecksumAlgorithm.loop, ha]
    cases matchesCandidate tbl a t with
    | true => simp
    | false => simpa using ih2

theorem orbitsClosed_id : OrbitsClosed (fun x => x) := by
  intro r h1 h2 h3
  exact ⟨h1, h2, h3⟩

/-- C7: when two inputs are equal under case folding (strings.EqualFold), and the
Unicode tables outside the orbits of the ASCII letters do not fold into them,
GetBOMChecksumAlgorithm returns the same value on both and fails on both or on
neither. -/
theorem GetBOMChecksumAlgorithm_case_insensitive (tbl : Nat → Nat) (htbl : OrbitsClosed tbl)
    (s t : GoString) (h : EqualFold tbl s t = true) :
    (GetBOMChecksumAlgorithm tbl s).1 = (GetBOMChecksumAlgorithm tbl t).1 ∧
    ((GetBOMChecksumAlgorithm tbl s).2 = none ↔ (GetBOMChecksumAlgorithm tbl t).2 = none) := by
  apply loop_fold_invariant
  intro a ha
  rw [matchesCandidate_eq_key tbl a s ha, matchesCandidate_eq_key tbl a t ha]
  exact keyMatches_of_EqualFold tbl htbl s t h a (candidates_ascii a ha)

/-- Witness of C7 at the inputs `ſha256`, with the long s U+017F encoded as the
bytes C5 BF, and `SHA256`. -/
theorem GetBOMChecksumAlgorithm_case_insensitive_witness :
    OrbitsClosed (fun x => x) ∧
    EqualFold (fun x => x) ([0xC5, 0xBF] ++ lit "ha256") (lit "SHA256") = true ∧
    ((GetBOMChecksumAlgorithm (fun x => x) ([0xC5, 0xBF] ++ lit "ha256")).1 =
        (GetBOMChecksumAlgorithm (fun x => x) (lit "SHA256")).1 ∧
      ((GetBOMChecksumAlgorithm (fun x => x) ([0xC5, 0xBF] ++ lit "ha256")).2 = none ↔
        (GetBOMChecksumAlgorithm (fun x => x) (lit "SHA256")).2 = none)) :=
  ⟨orbitsClosed_id, by decide,
    GetBOMChecksumAlgorithm_case_insensitive (fun x => x) orbitsClosed_id
      ([0xC5, 0xBF] ++ lit "ha256") (lit "SHA256") (by decide)⟩

/-- C8: when the input matches no candidate, GetBOMChecksumAlgorithm returns the
zero value and an error whose message is `failed to get supported BOM checksum
algorithm: `, the input verbatim, and ` is not valid`. -/
theorem GetBOMChecksumAlgorithm_error_message (tbl : Nat → Nat) (s : GoString)
    (h : ∀ a ∈ candidates, matchesCandidate tbl a s = false) :
    GetBOMChecksumAlgorithm tbl s =
      ({ name := [] },
        some (lit "failed to get supported BOM checksum algorithm: " ++ s ++
          lit " is not valid")) := by
  rcases GetBOM_cases tbl s with ⟨a, ha, hm, _⟩ | ⟨_, h2⟩
  · rw [h a ha] at hm
    exact absurd hm (by decide)
  · exact h2

/-- Witness of C8 at the input `not-an-algorithm`. -/
theorem GetBOMChecksumAlgorithm_error_message_witness :
    (∀ a ∈ candidates, matchesCandidate (fun x => x) a (lit "not-an-algorithm") = false) ∧
    GetBOMChecksumAlgorithm (fun x => x) (lit "not-an-algorithm") =
      ({ name := [] },
        some (lit "failed to get supported BOM checksum algorithm: not-an-algorithm is not valid")) :=
  ⟨by decide,
    GetBOMChecksumAlgorithm_error_message (fun x => x) (lit "not-an-algorithm") (by decide)⟩

/-! ### Format negotiation -/

theorem splitSemicolon_name (n : GoString) (h : 0x3B ∉ n) :
    splitSemicolon n = (n, none) := by
  induction n with
  | nil => rfl
  | cons c n ih =>
    have hc : c ≠ 0x3B := fun e => h (e ▸ List.mem_cons_self c n)
    have hn : 0x3B ∉ n := fun e => h (List.mem_cons_of_mem c e)
    simp [splitSemicolon, hc, ih hn]

theorem splitSemicolon_append (n rest : GoString) (h : 0x3B ∉ n) :
    splitSemicolon (n ++ 0x3B :: rest) = (n, some rest) := by
  induction n with
  | nil => simp [splitSemicolon]
  | cons c n ih =>
    have hc : c ≠ 0x3B := fun e => h (e ▸ List.mem_cons_self c n)
    have hn : 0x3B ∉ n := fun e => h (List.mem_cons_of_mem c e)
    simp [splitSemicolon, hc, ih hn]

theorem afterLeading_append (p v : GoString) : afterLeading p (p ++ v) = some v := by
  induction p with
  | nil => cases v <;> rfl
  | cons c p ih => simp [afterLeading, ih]

theorem parseFormatSpec_name (n : GoString) (h : 0x3B ∉ n) :
    parseFormatSpec n = Except.ok { name := n, version := none } := by
  simp [parseFormatSpec, splitSemicolon_name n h]

theorem parseFormatSpec_version (n v : GoString) (h : 0x3B ∉ n) :
    parseFormatSpec (n ++ lit ";version=" ++ v) =
      Except.ok { name := n, version := some v } := by
  have e : lit ";version=" = 0x3B :: lit "version=" := by decide
  rw [e, List.append_assoc, List.cons_append]
  simp [parseFormatSpec, splitSemicolon_append n _ h, afterLeading_append]

theorem lookupFormat_none (reg : List FormatEntry) (n : GoString)
    (h : ∀ e ∈ reg, e.name ≠ n) : lookupFormat reg n = none := by
  unfold lookupFormat
  rw [List.find?_eq_none]
  intro e he
  simpa using h e he

theorem InFormats_cons (reg : List FormatEntry) (s : GoString) (rest : List GoString) :
    InFormats reg (s :: rest) =
      match parseFormatSpec s with
      | Except.error e => Except.error e
      | Except.ok spec =>
        match resolveFormat reg spec with
        | Except.error e => Except.error e
        | Except.ok r =>
          match InFormats reg rest with
          | Except.error e => Except.error e
          | Except.ok rs => Except.ok (r :: rs) := by
  simp only [InFormats]

theorem InFormats_append_error (reg : List FormatEntry) (err : FormatError)
    (s : GoString) (post : List GoString)
    (hs : InFormats reg [s] = Except.error err) :
    ∀ (pre : List GoString) (rs : List ResolvedFormat), InFormats reg pre = Except.ok rs →
      InFormats reg (pre ++ s :: post) = Except.error err := by
  have hhead : InFormats reg (s :: post) = Except.error err := by
    rw [InFormats_cons] at hs ⊢
    cases hp : parseFormatSpec s with
    | error e => simp only [hp] at hs ⊢; exact hs
    | ok spec =>
      cases hr : resolveFormat reg spec with
      | error e => simp only [hp, hr] at hs ⊢; exact hs
      | ok r => simp [hp, hr, InFormats] at hs
  intro pre
  induction pre with
  | nil => intro _ _; exact hhead
  | cons p pre ih =>
    intro rs hpre
    rw [InFormats_cons] at hpre
    rw [List.cons_append, InFormats_cons]
    cases hp : parseFormatSpec p with
    | error e => simp [hp] at hpre
    | ok spec =>
      cases hr : resolveFormat reg spec with
      | error e => simp [hp, hr] at hpre
      | ok r =>
        cases hrest : InFormats reg pre with
        | error e => simp [hp, hr, hrest] at hpre
        | ok rs2 => simp only [ih rs2 hrest, hr]

/-- C9: for a format name that is not in the format registry, InFormats fails with
the error UnsupportedFormat carrying the name as requested, also after format
specifications that resolve and before any others, so that nothing is returned for
them; the message is `unsupported SBOM format: '` followed by the name and `'`. -/
theorem InFormats_unsupported_format (reg : List FormatEntry) (n : GoString)
    (pre post : List GoString) (rs : List ResolvedFormat)
    (hn : 0x3B ∉ n) (hreg : ∀ e ∈ reg, e.name ≠ n)
    (hpre : InFormats reg pre = Except.ok rs) :
    InFormats reg [n] = Except.error (FormatError.UnsupportedFormat n) ∧
    InFormats reg (pre ++ n :: post) = Except.error (FormatError.UnsupportedFormat n) ∧
    (FormatError.UnsupportedFormat n).Error =
      some (lit "unsupported SBOM format: '" ++ n ++ lit "'") := by
  have h1 : InFormats reg [n] = Except.error (FormatError.UnsupportedFormat n) := by
    rw [InFormats_cons, parseFormatSpec_name n hn]
    simp [resolveFormat, lookupFormat_none reg n hreg]
  exact ⟨h1, InFormats_append_error reg _ n post h1 pre rs hpre, rfl⟩

/-- Witness of C9 at the name `unknown-format`, requested after a format of the
sample registry. -/
theorem InFormats_unsupported_format_witness :
    (0x3B ∉ lit "unknown-format" ∧
      (∀ e ∈ sampleRegistry, e.name ≠ lit "unknown-format") ∧
      InFormats sampleRegistry [lit "application/spdx+json"] =
        Except.ok [{ name := lit "application/spdx+json", version := lit "2.2",
                     extension := lit "spdx.json" }]) ∧
    (InFormats sampleRegistry [lit "unknown-format"] =
        Except.error (FormatError.UnsupportedFormat (lit "unknown-format")) ∧
      InFormats sampleRegistry [lit "application/spdx+json", lit "unknown-format"] =
        Except.error (FormatError.UnsupportedFormat (lit "unknown-format")) ∧
      (FormatError.UnsupportedFormat (lit "unknown-format")).Error =
        some (lit "unsupported SBOM format: 'unknown-format'")) :=
  ⟨⟨by decide, by decide, rfl⟩,
    InFormats_unsupported_format sampleRegistry (lit "unknown-format")
      [lit "application/spdx+json"] [] _ (by decide) (by decide) rfl⟩

/-- C10: for a registered format name `F` and a version string `V` that is not
exactly one of the version strings registered for `F`, InFormats on `F;version=V`
fails with the error UnsupportedVersion carrying `F` and `V`, also after format
specifications that resolve; the message is `version '`, `V`,
`' is not supported for SBOM format '`, `F` and `'`. -/
theorem InFormats_unsupported_version (reg : List FormatEntry) (e : FormatEntry)
    (F V : GoString) (pre post : List GoString) (rs : List ResolvedFormat)
    (hF : 0x3B ∉ F) (he : lookupFormat reg F = some e) (hV : V ∉ e.versions)
    (hpre : InFormats reg pre = Except.ok rs) :
    InFormats reg [F ++ lit ";version=" ++ V] =
      Except.error (FormatError.UnsupportedVersion F V) ∧
    InFormats reg (pre ++ (F ++ lit ";version=" ++ V) :: post) =
      Except.error (FormatError.UnsupportedVersion F V) ∧
    (FormatError.UnsupportedVersion F V).Error =
      some (lit "version '" ++ V ++ lit "' is not supported for SBOM format '" ++ F ++
        lit "'") := by
  have h1 : InFormats reg [F ++ lit ";version=" ++ V] =
      Except.error (FormatError.UnsupportedVersion F V) := by
    rw [InFormats_cons, parseFormatSpec_version F V hF]
    simp [resolveFormat, he, hV]
  exact ⟨h1, InFormats_append_error reg _ _ post h1 pre rs hpre, rfl⟩

/-- Witness of C10 at the first format of the sample registry and the version
`0.0.0`. -/
theorem InFormats_unsupported_version_witness :
    (0x3B ∉ lit "application/vnd.syft+json" ∧
      lookupFormat sampleRegistry (lit "application/vnd.syft+json") =
        some { name := lit "application/vnd.syft+json", version := lit "3.0.1",
               more := [lit "2.0.2"], extension := lit "syft.json" } ∧
      lit "0.0.0" ∉ [lit "3.0.1", lit "2.0.2"] ∧
      InFormats sampleRegistry [] = Except.ok []) ∧
    (InFormats sampleRegistry [lit "application/vnd.syft+json;version=0.0.0"] =
        Except.error
          (FormatError.UnsupportedVersion (lit "application/vnd.syft+json") (lit "0.0.0")) ∧
      (FormatError.UnsupportedVersion (lit "application/vnd.syft+json") (lit "0.0.0")).Error =
        some (lit
          "version '0.0.0' is not supported for SBOM format 'application/vnd.syft+json'")) :=
  ⟨⟨by decide, by decide, by decide, rfl⟩,
    ⟨(InFormats_unsupported_version sampleRegistry
        { name := lit "application/vnd.syft+json", version := lit "3.0.1",
          more := [lit "2.0.2"], extension := lit "syft.json" }
        (lit "application/vnd.syft+json") (lit "0.0.0") [] [] []
        (by decide) (by decide) (by decide) rfl).1,
      by decide⟩⟩

/-! ### Marshalling and idempotence -/

/-- C12: for every checksumAlgorithm value, String() is the stored name unchanged
and MarshalText() is the bytes of String() with the nil error; so for every
canonical name `A`, GetBOMChecksumAlgorithm succeeds on `A` and marshalling its
value yields the bytes of `A`. -/
theorem checksumAlgorithm_MarshalText_canonical (tbl : Nat → Nat) (a : checksumAlgorithm) :
    a.String = a.name ∧
    a.MarshalText = (a.String, none) ∧
    a.MarshalText = (a.name, none) ∧
    (∀ A ∈ canonicalNames,
      (GetBOMChecksumAlgorithm tbl A).2 = none ∧
      (GetBOMChecksumAlgorithm tbl A).1.MarshalText = (A, none)) := by
  refine ⟨rfl, rfl, rfl, ?_⟩
  intro A hA
  rw [GetBOM_table_free tbl A, (canonical_spellings_id A hA).1]
  exact ⟨rfl, rfl⟩

/-- C13: when GetBOMChecksumAlgorithm succeeds on an input with the value `v`, it
also succeeds on `v.String()` and returns the same value `v`. -/
theorem GetBOMChecksumAlgorithm_idempotent (tbl : Nat → Nat) (s : GoString)
    (v : checksumAlgorithm) (h : GetBOMChecksumAlgorithm tbl s = (v, none)) :
    GetBOMChecksumAlgorithm tbl v.String = (v, none) := by
  rcases GetBOM_cases tbl s with ⟨a, ha, _, h2⟩ | ⟨_, h2⟩
  · rw [h2] at h
    have hv : v = { name := a } := (congrArg Prod.fst h).symm
    subst hv
    rw [GetBOM_table_free tbl]
    exact (canonical_spellings_id a ((mem_candidates_iff a).mp ha)).1
  · rw [h2] at h
    exact absurd (congrArg Prod.snd h) (by simp)

/-- Witness of C13 at the input `blake2b512`, whose value has the name
`BLAKE2b-512`. -/
theorem GetBOMChecksumAlgorithm_idempotent_witness :
    GetBOMChecksumAlgorithm (fun x => x) (lit "blake2b512") =
      ({ name := lit "BLAKE2b-512" }, none) ∧
    GetBOMChecksumAlgorithm (fun x => x) (lit "BLAKE2b-512") =
      ({ name := lit "BLAKE2b-512" }, none) :=
  ⟨by decide,
    GetBOMChecksumAlgorithm_idempotent (fun x => x) (lit "blake2b512")
      { name := lit "BLAKE2b-512" } (by decide)⟩

/-! ### Removing hyphens from the input -/

theorem first_class (b : Nat) (h : 0x80 ≤ b) :
    first b = 0xF1 ∨
      (first b < 0xF0 ∧ 0x80 ≤ (acceptRanges (first b / 16)).1 ∧
        (acceptRanges (first b / 16)).2 ≤ 0xBF ∧
        ((first b % 8 = 2 ∧ 2 ≤ b % 32) ∨
          (first b % 8 = 3 ∧ (1 ≤ b % 16 ∨ 0xA0 ≤ (acceptRanges (first b / 16)).1)) ∨
          (first b % 8 = 4 ∧ (1 ≤ b % 8 ∨ 0x90 ≤ (acceptRanges (first b / 16)).1)))) := by
  unfold first
  split_ifs <;> simp [acceptRanges] <;> omega

theorem decode_invalid (s0 : Nat) (rest : GoString) (hx : first s0 = 0xF1) :
    DecodeRuneInString (s0 :: rest) = (RuneError, 1) := by
  simp [DecodeRuneInString, hx]

theorem decode_short (s0 : Nat) (rest : GoString) (hlt : first s0 < 0xF0)
    (hlen : rest.length + 1 < first s0 % 8) :
    DecodeRuneInString (s0 :: rest) = (RuneError, 1) := by
  have h1 : ¬ 0xF0 ≤ first s0 := by omega
  simp only [DecodeRuneInString, h1, if_false, List.length_cons, hlen, if_true]

theorem decode_two (s0 s1 : Nat) (r : GoString) (hlt : first s0 < 0xF0)
    (hs : first s0 % 8 = 2) :
    DecodeRuneInString (s0 :: s1 :: r) =
      if s1 < (acceptRanges (first s0 / 16)).1 ∨ (acceptRanges (first s0 / 16)).2 < s1 then
        (RuneError, 1)
      else (s0 % 32 * 64 + s1 % 64, 2) := by
  have h1 : ¬ 0xF0 ≤ first s0 := by omega
  have h2 : ¬ (r.length + 1 + 1 < 2) := by omega
  simp only [DecodeRuneInString, h1, if_false, List.length_cons, hs, h2, le_refl, if_true]

theorem decode_three (s0 s1 s2 : Nat) (r : GoString) (hlt : first s0 < 0xF0)
    (hs : first s0 % 8 = 3) :
    DecodeRuneInString (s0 :: s1 :: s2 :: r) =
      if s1 < (acceptRanges (first s0 / 16)).1 ∨ (acceptRanges (first s0 / 16)).2 < s1 then
        (RuneError, 1)
      else if s2 < 0x80 ∨ 0xBF < s2 then (RuneError, 1)
      else (s0 % 16 * 4096 + s1 % 64 * 64 + s2 % 64, 3) := by
  have h1 : ¬ 0xF0 ≤ first s0 := by omega
  have h2 : ¬ (r.length + 1 + 1 + 1 < 3) := by omega
  have h3 : ¬ (3 ≤ 2) := by omega
  simp only [DecodeRuneInString, h1, if_false, List.length_cons, hs, h2, h3, le_refl, if_true]

theorem decode_four (s0 s1 s2 s3 : Nat) (r : GoString) (hlt : first s0 < 0xF0)
    (hs : first s0 % 8 = 4) :
    DecodeRuneInString (s0 :: s1 :: s2 :: s3 :: r) =
      if s1 < (acceptRanges (first s0 / 16)).1 ∨ (acceptRanges (first s0 / 16)).2 < s1 then
        (RuneError, 1)
      else if s2 < 0x80 ∨ 0xBF < s2 then (RuneError, 1)
      else if s3 < 0x80 ∨ 0xBF < s3 then (RuneError, 1)
      else (s0 % 8 * 262144 + s1 % 64 * 4096 + s2 % 64 * 64 + s3 % 64, 4) := by
  have h1 : ¬ 0xF0 ≤ first s0 := by omega
  have h2 : ¬ (r.length + 1 + 1 + 1 + 1 < 4) := by omega
  have h3 : ¬ (4 ≤ 2) := by omega
  have h4 : ¬ (4 ≤ 3) := by omega
  simp only [DecodeRuneInString, h1, if_false, List.length_cons, hs, h2, h3, h4, if_true]

theorem decode_valid_cases (s0 : Nat) (rest : GoString) (h0 : 0x80 ≤ s0)
    (hne : (DecodeRuneInString (s0 :: rest)).1 ≠ RuneError) :
    ∃ v, 0x80 ≤ v ∧
      ((∃ s1 r, rest = s1 :: r ∧ 0x80 ≤ s1 ∧
          ∀ t, DecodeRuneInString (s0 :: s1 :: t) = (v, 2)) ∨
        (∃ s1 s2 r, rest = s1 :: s2 :: r ∧ 0x80 ≤ s1 ∧ 0x80 ≤ s2 ∧
          ∀ t, DecodeRuneInString (s0 :: s1 :: s2 :: t) = (v, 3)) ∨
        (∃ s1 s2 s3 r, rest = s1 :: s2 :: s3 :: r ∧ 0x80 ≤ s1 ∧ 0x80 ≤ s2 ∧ 0x80 ≤ s3 ∧
          ∀ t, DecodeRuneInString (s0 :: s1 :: s2 :: s3 :: t) = (v, 4))) := by
  rcases first_class s0 h0 with hx | ⟨hlt, hlo, hhi, ⟨hs, hv⟩ | ⟨hs, hv⟩ | ⟨hs, hv⟩⟩
  · rw [decode_invalid s0 rest hx] at hne
    exact absurd rfl hne
  · rcases rest with _ | ⟨s1, r⟩
    · rw [decode_short s0 [] hlt (by simp [hs])] at hne
      exact absurd rfl hne
    · rw [decode_two s0 s1 r hlt hs] at hne
      by_cases hb : s1 < (acceptRanges (first s0 / 16)).1 ∨ (acceptRanges (first s0 / 16)).2 < s1
      · rw [if_pos hb] at hne; exact absurd rfl hne
      · refine ⟨s0 % 32 * 64 + s1 % 64, ?_, Or.inl ⟨s1, r, rfl, by omega, fun t => ?_⟩⟩
        · omega
        · rw [decode_two s0 s1 t hlt hs, if_neg hb]
  · rcases rest with _ | ⟨s1, _ | ⟨s2, r⟩⟩
    · rw [decode_short s0 [] hlt (by simp [hs])] at hne
      exact absurd rfl hne
    · rw [decode_short s0 [s1] hlt (by simp [hs])] at hne
      exact absurd rfl hne
    · rw [decode_three s0 s1 s2 r hlt hs] at hne
      by_cases hb : s1 < (acceptRanges (first s0 / 16)).1 ∨ (acceptRanges (first s0 / 16)).2 < s1
      · rw [if_pos hb] at hne; exact absurd rfl hne
      · rw [if_neg hb] at hne
        by_cases hc : s2 < 0x80 ∨ 0xBF < s2
        · rw [if_pos hc] at hne; exact absurd rfl hne
        · refine ⟨s0 % 16 * 4096 + s1 % 64 * 64 + s2 % 64, ?_,
            Or.inr (Or.inl ⟨s1, s2, r, rfl, by omega, by omega, fun t => ?_⟩)⟩
          · omega
          · rw [decode_three s0 s1 s2 t hlt hs, if_neg hb, if_neg hc]
  · rcases rest with _ | ⟨s1, _ | ⟨s2, _ | ⟨s3, r⟩⟩⟩
    · rw [decode_short s0 [] hlt (by simp [hs])] at hne
      exact absurd rfl hne
    · rw [decode_short s0 [s1] hlt (by simp [hs])] at hne
      exact absurd rfl hne
    · rw [decode_short s0 [s1, s2] hlt (by simp [hs])] at hne
      exact absurd rfl hne
    · rw [decode_four s0 s1 s2 s3 r hlt hs] at hne
      by_cases hb : s1 < (acceptRanges (first s0 / 16)).1 ∨ (acceptRanges (first s0 / 16)).2 < s1
      · rw [if_pos hb] at hne; exact absurd rfl hne
      · rw [if_neg hb] at hne
        by_cases hc : s2 < 0x80 ∨ 0xBF < s2
        · rw [if_pos hc] at hne; exact absurd rfl hne
        · rw [if_neg hc] at hne
          by_cases hd : s3 < 0x80 ∨ 0xBF < s3
          · rw [if_pos hd] at hne; exact absurd rfl hne
          · refine ⟨s0 % 8 * 262144 + s1 % 64 * 4096 + s2 % 64 * 64 + s3 % 64, ?_, Or.inr (Or.inr
              ⟨s1, s2, s3, r, rfl, by omega, by omega, by omega, fun t => ?_⟩)⟩
            · omega
            · rw [decode_four s0 s1 s2 s3 t hlt hs, if_neg hb, if_neg hc, if_neg hd]

theorem runes_of_decode (s0 : Nat) (rest : GoString) (v w : Nat)
    (h : DecodeRuneInString (s0 :: rest) = (v, w)) :
    runes (s0 :: rest) = v :: runes ((s0 :: rest).drop w) := by
  rw [runes_cons, h]

theorem stripHyphens_cons_keep (c : Nat) (s : GoString) (h : c ≠ 0x2D) :
    stripHyphens (c :: s) = c :: stripHyphens s := by
  simp [stripHyphens, List.filter_cons, h]

theorem stripHyphens_cons_hyphen (s : GoString) :
    stripHyphens (0x2D :: s) = stripHyphens s := by
  simp [stripHyphens, List.filter_cons]

theorem runes_stripHyphens (n : Nat) : ∀ s : GoString, s.length ≤ n →
    (∀ r ∈ runes s, r ≠ RuneError) →
    runes (stripHyphens s) = (runes s).filter (fun r => decide (r ≠ 0x2D)) := by
  induction n using Nat.strong_induction_on with
  | _ n ih =>
    intro s hlen h
    cases s with
    | nil => rfl
    | cons s0 rest =>
      simp only [List.length_cons] at hlen
      by_cases h0 : s0 < 0x80
      · rw [runes_cons_ascii s0 rest h0] at h ⊢
        have hrest := ih (n - 1) (by omega) rest (by omega)
          (fun r hr => h r (List.mem_cons_of_mem s0 hr))
        by_cases e : s0 = 0x2D
        · subst e
          rw [stripHyphens_cons_hyphen, hrest]
          simp [List.filter_cons]
        · rw [stripHyphens_cons_keep s0 rest e, runes_cons_ascii s0 _ h0, hrest]
          simp [List.filter_cons, e]
      · have hne : (DecodeRuneInString (s0 :: rest)).1 ≠ RuneError := by
          apply h
          rw [runes_cons]
          exact List.mem_cons_self _ _
        obtain ⟨v, hv, hshape⟩ := decode_valid_cases s0 rest (by omega) hne
        have hv2 : v ≠ 0x2D := by omega
        have hs0 : s0 ≠ 0x2D := by omega
        rcases hshape with ⟨s1, r, rfl, h1, hd⟩ | ⟨s1, s2, r, rfl, h1, h2, hd⟩ |
          ⟨s1, s2, s3, r, rfl, h1, h2, h3, hd⟩
        · have e1 : runes (s0 :: s1 :: r) = v :: runes r := runes_of_decode _ _ _ _ (hd r)
          rw [e1] at h ⊢
          simp only [List.length_cons] at hlen
          have hrest := ih (n - 1) (by omega) r (by omega)
            (fun x hx => h x (List.mem_cons_of_mem v hx))
          rw [stripHyphens_cons_keep s0 _ hs0, stripHyphens_cons_keep s1 _ (by omega)]
          have e2 : runes (s0 :: s1 :: stripHyphens r) = v :: runes (stripHyphens r) :=
            runes_of_decode _ _ _ _ (hd _)
          rw [e2, hrest]
          simp [List.filter_cons, hv2]
        · have e1 : runes (s0 :: s1 :: s2 :: r) = v :: runes r :=
            runes_of_decode _ _ _ _ (hd r)
          rw [e1] at h ⊢
          simp only [List.length_cons] at hlen
          have hrest := ih (n - 1) (by omega) r (by omega)
            (fun x hx => h x (List.mem_cons_of_mem v hx))
          rw [stripHyphens_cons_keep s0 _ hs0, stripHyphens_cons_keep s1 _ (by omega),
            stripHyphens_cons_keep s2 _ (by omega)]
          have e2 : runes (s0 :: s1 :: s2 :: stripHyphens r) = v :: runes (stripHyphens r) :=
            runes_of_decode _ _ _ _ (hd _)
          rw [e2, hrest]
          simp [List.filter_cons, hv2]
        · have e1 : runes (s0 :: s1 :: s2 :: s3 :: r) = v :: runes r :=
            runes_of_decode _ _ _ _ (hd r)
          rw [e1] at h ⊢
          simp only [List.length_cons] at hlen
          have hrest := ih (n - 1) (by omega) r (by omega)
            (fun x hx => h x (List.mem_cons_of_mem v hx))
          rw [stripHyphens_cons_keep s0 _ hs0, stripHyphens_cons_keep s1 _ (by omega),
            stripHyphens_cons_keep s2 _ (by omega), stripHyphens_cons_keep s3 _ (by omega)]
          have e2 : runes (s0 :: s1 :: s2 :: s3 :: stripHyphens r) =
              v :: runes (stripHyphens r) := runes_of_decode _ _ _ _ (hd _)
          rw [e2, hrest]
          simp [List.filter_cons, hv2]

theorem foldKey_eq_hyphen (r : Nat) : foldKey r = 0x2D ↔ r = 0x2D := by
  unfold foldKey
  split_ifs <;> omega

theorem foldKey_RuneError : foldKey RuneError = RuneError := by decide

theorem foldKeys_stripHyphens (s : GoString) (h : ∀ k ∈ foldKeys s, k < 0x80) :
    foldKeys (stripHyphens s) = (foldKeys s).filter (fun k => decide (k ≠ 0x2D)) := by
  have hr : ∀ r ∈ runes s, r ≠ RuneError := by
    intro r hr e
    have := h (foldKey r) (List.mem_map_of_mem foldKey hr)
    rw [e, foldKey_RuneError] at this
    exact absurd this (by decide)
  simp only [foldKeys]
  rw [runes_stripHyphens s.length s (le_refl _) hr, List.filter_map]
  congr 1
  apply List.filter_congr
  intro r _
  have := foldKey_eq_hyphen r
  by_cases e : r = 0x2D
  · subst e
    simp [foldKey]
  · have e2 : ¬ foldKey r = 0x2D := fun h2 => e (this.mp h2)
    simp [e, e2]

theorem stripHyphens_idem (s : GoString) : stripHyphens (stripHyphens s) = stripHyphens s := by
  simp [stripHyphens, List.filter_filter]

theorem GetBOM_of_match (tbl : Nat → Nat) (s a : GoString) (ha : a ∈ candidates)
    (hm : matchesCandidate tbl a s = true) :
    GetBOMChecksumAlgorithm tbl s = ({ name := a }, none) := by
  rcases GetBOM_cases tbl s with ⟨b, hb, hbm, h⟩ | ⟨hno, _⟩
  · rw [h, matchesCandidate_unique tbl s a b ha hb hm hbm]
  · rw [hno a ha] at hm
    exact absurd hm (by decide)

theorem keyMatches_stripHyphens (a s : GoString) (ha : ∀ c ∈ a, c < 0x80)
    (h : keyMatches a s = true) : keyMatches a (stripHyphens s) = true := by
  have ka := foldKeys_ascii_lt a ha
  have ksa := foldKeys_ascii_lt (stripHyphens a) (stripHyphens_ascii a ha)
  have e1 : foldKeys (stripHyphens a) =
      (foldKeys a).filter (fun k => decide (k ≠ 0x2D)) := foldKeys_stripHyphens a ka
  have e2 : foldKeys (stripHyphens a) =
      (foldKeys (stripHyphens a)).filter (fun k => decide (k ≠ 0x2D)) := by
    have := foldKeys_stripHyphens (stripHyphens a) ksa
    rw [stripHyphens_idem] at this
    exact this
  simp only [keyMatches, Bool.or_eq_true, decide_eq_true_eq] at h ⊢
  right
  rcases h with h | h
  · rw [foldKeys_stripHyphens s (h ▸ ka), h, ← e1]
  · rw [foldKeys_stripHyphens s (h ▸ ksa), h, ← e2]

/-- C14: when GetBOMChecksumAlgorithm succeeds on an input with the value `v`, it
also succeeds with the same value `v` on the input with every hyphen removed
(strings.ReplaceAll with `-` and the empty string); the converse fails: the input
`SHA-3-256` is rejected and its hyphen-free form `SHA3256` is accepted. -/
theorem GetBOMChecksumAlgorithm_hyphens_removed (tbl : Nat → Nat) (s : GoString)
    (v : checksumAlgorithm) (h : GetBOMChecksumAlgorithm tbl s = (v, none)) :
    GetBOMChecksumAlgorithm tbl (stripHyphens s) = (v, none) ∧
    GetBOMChecksumAlgorithm tbl (ReplaceAll s (lit "-") (lit "")) = (v, none) ∧
    (GetBOMChecksumAlgorithm tbl (lit "SHA-3-256")).2 ≠ none ∧
    GetBOMChecksumAlgorithm tbl (stripHyphens (lit "SHA-3-256")) =
      ({ name := lit "SHA3-256" }, none) := by
  have hmain : GetBOMChecksumAlgorithm tbl (stripHyphens s) = (v, none) := by
    rcases GetBOM_cases tbl s with ⟨a, ha, hm, h2⟩ | ⟨_, h2⟩
    · rw [h2] at h
      have hv : v = { name := a } := (congrArg Prod.fst h).symm
      subst hv
      apply GetBOM_of_match tbl _ a ha
      rw [matchesCandidate_eq_key tbl a _ ha] at hm ⊢
      exact keyMatches_stripHyphens a s (candidates_ascii a ha) hm
    · rw [h2] at h
      exact absurd (congrArg Prod.snd h) (by simp)
  have hex : (GetBOMChecksumAlgorithm (fun x => x) (lit "SHA-3-256")).2 ≠ none ∧
      GetBOMChecksumAlgorithm (fun x => x) (stripHyphens (lit "SHA-3-256")) =
        ({ name := lit "SHA3-256" }, none) := by
    decide
  refine ⟨hmain, ?_, ?_, ?_⟩
  · rw [ReplaceAll_hyphen]; exact hmain
  · rw [GetBOM_table_free tbl]; exact hex.1
  · rw [GetBOM_table_free tbl]; exact hex.2

/-- Witness of C14 at the input `sha-512`, whose hyphen-free form is `sha512`. -/
theorem GetBOMChecksumAlgorithm_hyphens_removed_witness :
    GetBOMChecksumAlgorithm (fun x => x) (lit "sha-512") =
      ({ name := lit "SHA-512" }, none) ∧
    stripHyphens (lit "sha-512") = lit "sha512" ∧
    GetBOMChecksumAlgorithm (fun x => x) (lit "sha512") =
      ({ name := lit "SHA-512" }, none) :=
  ⟨by decide, by decide,
    (GetBOMChecksumAlgorithm_hyphens_removed (fun x => x) (lit "sha-512")
      { name := lit "SHA-512" } (by decide)).1⟩

/-! ### Version resolution -/

theorem bytesLT_trans : ∀ a b c : GoString,
    bytesLT a b = true → bytesLT b c = true → bytesLT a c = true := by
  intro a
  induction a with
  | nil =>
    intro b c h1 h2
    cases b with
    | nil => simp [bytesLT] at h1
    | cons y ys =>
      cases c with
      | nil => simp [bytesLT] at h2
      | cons z zs => rfl
  | cons x xs ih =>
    intro b c h1 h2
    cases b with
    | nil => simp [bytesLT] at h1
    | cons y ys =>
      cases c with
      | nil => simp [bytesLT] at h2
      | cons z zs =>
        simp only [bytesLT, Bool.or_eq_true, Bool.and_eq_true, decide_eq_true_eq] at h1 h2 ⊢
        rcases h1 with h1 | ⟨h1, h1r⟩ <;> rcases h2 with h2 | ⟨h2, h2r⟩
        · exact Or.inl (by omega)
        · exact Or.inl (by omega)
        · exact Or.inl (by omega)
        · exact Or.inr ⟨by omega, ih ys zs h1r h2r⟩

theorem bytesLT_trichotomy : ∀ a b : GoString,
    bytesLT a b = true ∨ a = b ∨ bytesLT b a = true := by
  intro a
  induction a with
  | nil =>
    intro b
    cases b with
    | nil => exact Or.inr (Or.inl rfl)
    | cons y ys => exact Or.inl rfl
  | cons x xs ih =>
    intro b
    cases b with
    | nil => exact Or.inr (Or.inr rfl)
    | cons y ys =>
      simp only [bytesLT, Bool.or_eq_true, Bool.and_eq_true, decide_eq_true_eq,
        List.cons.injEq]
      rcases Nat.lt_trichotomy x y with h | h | h
      · exact Or.inl (Or.inl h)
      · rcases ih ys with h2 | h2 | h2
        · exact Or.inl (Or.inr ⟨h, h2⟩)
        · exact Or.inr (Or.inl ⟨h, h2⟩)
        · exact Or.inr (Or.inr (Or.inr ⟨h.symm, h2⟩))
      · exact Or.inr (Or.inr (Or.inl h))

theorem PreId_lt_trans (a b c : PreId) (h1 : a.lt b = true) (h2 : b.lt c = true) :
    a.lt c = true := by
  cases a <;> cases b <;> cases c <;> simp only [PreId.lt, decide_eq_true_eq] at h1 h2 ⊢ <;>
    first
    | omega
    | exact bytesLT_trans _ _ _ h1 h2
    | exact Bool.noConfusion h1
    | exact Bool.noConfusion h2

theorem PreId_lt_trichotomy (a b : PreId) : a.lt b = true ∨ a = b ∨ b.lt a = true := by
  cases a with
  | num m =>
    cases b with
    | num n =>
      simp only [PreId.lt, decide_eq_true_eq, PreId.num.injEq]
      omega
    | alnum t => exact Or.inl rfl
  | alnum s =>
    cases b with
    | num n => exact Or.inr (Or.inr rfl)
    | alnum t =>
      simp only [PreId.lt, PreId.alnum.injEq]
      exact bytesLT_trichotomy s t

theorem preLE_trans : ∀ a b c : List PreId,
    preLE a b = true → preLE b c = true → preLE a c = true := by
  intro a
  induction a with
  | nil => intro b c _ _; cases c <;> rfl
  | cons x xs ih =>
    intro b c h1 h2
    cases b with
    | nil => simp [preLE] at h1
    | cons y ys =>
      cases c with
      | nil => simp [preLE] at h2
      | cons z zs =>
        simp only [preLE, Bool.or_eq_true, Bool.and_eq_true, decide_eq_true_eq] at h1 h2 ⊢
        rcases h1 with h1 | ⟨h1, h1r⟩ <;> rcases h2 with h2 | ⟨h2, h2r⟩
        · exact Or.inl (PreId_lt_trans _ _ _ h1 h2)
        · exact Or.inl (h2 ▸ h1)
        · exact Or.inl (h1 ▸ h2)
        · exact Or.inr ⟨h1.trans h2, ih ys zs h1r h2r⟩

theorem preLE_total : ∀ a b : List PreId, preLE a b = true ∨ preLE b a = true := by
  intro a
  induction a with
  | nil => intro b; exact Or.inl (by cases b <;> rfl)
  | cons x xs ih =>
    intro b
    cases b with
    | nil => exact Or.inr rfl
    | cons y ys =>
      simp only [preLE, Bool.or_eq_true, Bool.and_eq_true, decide_eq_true_eq]
      rcases PreId_lt_trichotomy x y with h | h | h
      · exact Or.inl (Or.inl h)
      · rcases ih ys with h2 | h2
        · exact Or.inl (Or.inr ⟨h, h2⟩)
        · exact Or.inr (Or.inr ⟨h.symm, h2⟩)
      · exact Or.inr (Or.inl h)

theorem preOptLE_trans (a b c : Option (List PreId))
    (h1 : preOptLE a b = true) (h2 : preOptLE b c = true) : preOptLE a c = true := by
  cases a <;> cases b <;> cases c <;> simp only [preOptLE] at h1 h2 ⊢ <;>
    first
    | exact preLE_trans _ _ _ h1 h2
    | exact Bool.noConfusion h1
    | exact Bool.noConfusion h2

theorem preOptLE_total (a b : Option (List PreId)) :
    preOptLE a b = true ∨ preOptLE b a = true := by
  cases a with
  | none => exact Or.inr (by cases b <;> rfl)
  | some x =>
    cases b with
    | none => exact Or.inl rfl
    | some y => exact preLE_total x y

theorem SemVer_le_iff (a b : SemVer) :
    a.le b = true ↔
      (a.major < b.major ∨
        (a.major = b.major ∧
          (a.minor < b.minor ∨
            (a.minor = b.minor ∧
              (a.patch < b.patch ∨
                (a.patch = b.patch ∧ preOptLE a.pre b.pre = true)))))) := by
  simp [SemVer.le]

theorem SemVer_le_trans (a b c : SemVer) (h1 : a.le b = true) (h2 : b.le c = true) :
    a.le c = true := by
  rw [SemVer_le_iff] at h1 h2 ⊢
  rcases h1 with h1 | ⟨h1, h1' | ⟨h1', h1'' | ⟨h1'', p1⟩⟩⟩ <;>
    rcases h2 with h2 | ⟨h2, h2' | ⟨h2', h2'' | ⟨h2'', p2⟩⟩⟩ <;>
    first
    | exact Or.inl (by omega)
    | exact Or.inr ⟨by omega, Or.inl (by omega)⟩
    | exact Or.inr ⟨by omega, Or.inr ⟨by omega, Or.inl (by omega)⟩⟩
    | exact Or.inr ⟨by omega, Or.inr ⟨by omega, Or.inr ⟨by omega,
        preOptLE_trans _ _ _ p1 p2⟩⟩⟩

theorem SemVer_le_total (a b : SemVer) : a.le b = true ∨ b.le a = true := by
  rw [SemVer_le_iff, SemVer_le_iff]
  rcases Nat.lt_trichotomy a.major b.major with h1 | h1 | h1 <;>
    rcases Nat.lt_trichotomy a.minor b.minor with h2 | h2 | h2 <;>
    rcases Nat.lt_trichotomy a.patch b.patch with h3 | h3 | h3 <;>
    first
    | exact Or.inl (Or.inl (by omega))
    | exact Or.inr (Or.inl (by omega))
    | exact Or.inl (Or.inr ⟨by omega, Or.inl (by omega)⟩)
    | exact Or.inr (Or.inr ⟨by omega, Or.inl (by omega)⟩)
    | exact Or.inl (Or.inr ⟨by omega, Or.inr ⟨by omega, Or.inl (by omega)⟩⟩)
    | exact Or.inr (Or.inr ⟨by omega, Or.inr ⟨by omega, Or.inl (by omega)⟩⟩)
    | exact (preOptLE_total a.pre b.pre).imp
        (fun p => Or.inr ⟨by omega, Or.inr ⟨by omega, Or.inr ⟨by omega, p⟩⟩⟩)
        (fun p => Or.inr ⟨by omega, Or.inr ⟨by omega, Or.inr ⟨by omega, p⟩⟩⟩)

theorem semverLE_total (a b : GoString) : semverLE a b = true ∨ semverLE b a = true := by
  unfold semverLE
  cases ha : parseSemver a with
  | none => exact Or.inl rfl
  | some x =>
    cases hb : parseSemver b with
    | none => exact Or.inr rfl
    | some y => exact SemVer_le_total x y

theorem semverLE_refl (a : GoString) : semverLE a a = true := by
  rcases semverLE_total a a with h | h <;> exact h

theorem semverLE_trans (a b c : GoString) (h1 : semverLE a b = true)
    (h2 : semverLE b c = true) : semverLE a c = true := by
  unfold semverLE at h1 h2 ⊢
  cases ha : parseSemver a with
  | none => rfl
  | some x =>
    cases hb : parseSemver b with
    | none => simp [ha, hb] at h1
    | some y =>
      cases hc : parseSemver c with
      | none => simp [hb, hc] at h2
      | some z =>
        simp only [ha, hb, hc] at h1 h2 ⊢
        exact SemVer_le_trans x y z h1 h2

theorem foldl_latest (l : List GoString) : ∀ init : GoString,
    l.foldl (fun best v => if semverLE best v then v else best) init ∈ init :: l ∧
    semverLE init (l.foldl (fun best v => if semverLE best v then v else best) init) = true ∧
    ∀ v ∈ l,
      semverLE v (l.foldl (fun best v => if semverLE best v then v else best) init) = true := by
  induction l with
  | nil =>
    intro init
    exact ⟨List.mem_cons_self _ _, semverLE_refl init, fun v hv => absurd hv (List.not_mem_nil v)⟩
  | cons x l ih =>
    intro init
    simp only [List.foldl_cons]
    obtain ⟨hm, hi, hall⟩ := ih (if semverLE init x = true then x else init)
    by_cases hle : semverLE init x = true
    · simp only [hle, if_true] at hm hi hall ⊢
      refine ⟨List.mem_cons_of_mem _ hm, semverLE_trans _ _ _ hle hi, ?_⟩
      intro v hv
      rcases List.mem_cons.mp hv with rfl | hv
      · exact hi
      · exact hall v hv
    · simp only [hle, if_false] at hm hi hall ⊢
      have hxi : semverLE x init = true := by
        rcases semverLE_total init x with h | h
        · exact absurd h hle
        · exact h
      refine ⟨?_, hi, ?_⟩
      · rcases List.mem_cons.mp hm with h | h
        · rw [h]; exact List.mem_cons_self _ _
        · exact List.mem_cons_of_mem _ (List.mem_cons_of_mem _ h)
      · intro v hv
        rcases List.mem_cons.mp hv with rfl | hv
        · exact semverLE_trans _ _ _ hxi hi
        · exact hall v hv

theorem latest_greatest (e : FormatEntry) :
    e.latest ∈ e.versions ∧ ∀ v ∈ e.versions, semverLE v e.latest = true := by
  obtain ⟨hm, hi, hall⟩ := foldl_latest e.more e.version
  refine ⟨hm, ?_⟩
  intro v hv
  rcases List.mem_cons.mp hv with rfl | hv
  · exact hi
  · exact hall v hv

theorem lookupFormat_name (reg : List FormatEntry) (F : GoString) (e : FormatEntry)
    (he : lookupFormat reg F = some e) : e.name = F := by
  unfold lookupFormat at he
  have := @List.find?_some FormatEntry (fun x => decide (x.name = F)) e reg he
  simpa using this

theorem SemVer_le_major (a b : SemVer) (h : a.le b = true) : a.major ≤ b.major := by
  rw [SemVer_le_iff] at h
  omega

theorem latest_unique (e : FormatEntry) (G : GoString) (hG : G ∈ e.versions)
    (h : ∀ v ∈ e.versions, v ≠ G → semverLE G v = false) : e.latest = G := by
  by_contra hne
  have h1 := h e.latest (latest_greatest e).1 hne
  rw [(latest_greatest e).2 G hG] at h1
  exact Bool.noConfusion h1

theorem latest_major (e : FormatEntry) (m : Nat)
    (h1 : ∃ v ∈ e.versions, ∃ sv, parseSemver v = some sv ∧ sv.major = m)
    (h2 : ∀ v ∈ e.versions, ∀ sv, parseSemver v = some sv → sv.major ≤ m) :
    ∃ sv, parseSemver e.latest = some sv ∧ sv.major = m := by
  obtain ⟨v, hv, sv, hp, hm⟩ := h1
  have hle := (latest_greatest e).2 v hv
  unfold semverLE at hle
  rw [hp] at hle
  cases hl : parseSemver e.latest with
  | none => rw [hl] at hle; exact Bool.noConfusion hle
  | some sl =>
    rw [hl] at hle
    have h3 := SemVer_le_major sv sl hle
    have h4 := h2 e.latest (latest_greatest e).1 sl hl
    exact ⟨sl, rfl, by omega⟩

/-- The precedence examples of semantic versioning: a pre-release is below its
release, and 1.0.0-alpha, 1.0.0-alpha.1, 1.0.0-alpha.beta, 1.0.0-beta,
1.0.0-beta.2, 1.0.0-beta.11, 1.0.0-rc.1, 1.0.0 ascend strictly. -/
theorem semverLE_examples :
    semverLE (lit "3.0.0-rc1") (lit "3.0.0") = true ∧
    semverLE (lit "3.0.0") (lit "3.0.0-rc1") = false ∧
    semverLE (lit "9.9.9") (lit "10.0.0") = true ∧
    semverLE (lit "10.0.0") (lit "9.9.9") = false ∧
    (∀ p ∈ [lit "1.0.0-alpha", lit "1.0.0-alpha.1", lit "1.0.0-alpha.beta", lit "1.0.0-beta",
          lit "1.0.0-beta.2", lit "1.0.0-beta.11", lit "1.0.0-rc.1"].zip
        [lit "1.0.0-alpha.1", lit "1.0.0-alpha.beta", lit "1.0.0-beta",
          lit "1.0.0-beta.2", lit "1.0.0-beta.11", lit "1.0.0-rc.1", lit "1.0.0"],
      semverLE p.1 p.2 = true ∧ semverLE p.2 p.1 = false) ∧
    ({ name := lit "f", version := lit "3.0.0-rc1", more := [lit "3.0.0", lit "2.0.2"],
       extension := lit "x" } : FormatEntry).latest = lit "3.0.0" := by
  decide

/-- C11: for a registered format name `F`, the specification string `F` without a
version resolves to the greatest of the version strings registered for `F` under
semantic-version ordering: a registered version that no registered version is
above, which is `G` when `G` is above every other registered version (CycloneDX
1.4, SPDX 2.2) and which has the major number `m` when `m` is the greatest major
number registered (Syft 3.x); the specification string `F;version=V` with a
registered version string `V` resolves to exactly `V`; and the document of a
resolved format reports the resolved version, after `SPDX-` in a document with
extension `spdx.json`. -/
theorem InFormats_version_resolution (reg : List FormatEntry) (e : FormatEntry)
    (F : GoString) (hF : 0x3B ∉ F) (he : lookupFormat reg F = some e) :
    InFormats reg [F] =
      Except.ok [{ name := F, version := e.latest, extension := e.extension }] ∧
    e.latest ∈ e.versions ∧
    (∀ v ∈ e.versions, semverLE v e.latest = true) ∧
    (∀ G ∈ e.versions, (∀ v ∈ e.versions, v ≠ G → semverLE G v = false) → e.latest = G) ∧
    (∀ m : Nat, (∃ v ∈ e.versions, ∃ sv, parseSemver v = some sv ∧ sv.major = m) →
      (∀ v ∈ e.versions, ∀ sv, parseSemver v = some sv → sv.major ≤ m) →
      ∃ sv, parseSemver e.latest = some sv ∧ sv.major = m) ∧
    (∀ V ∈ e.versions,
      InFormats reg [F ++ lit ";version=" ++ V] =
        Except.ok [{ name := F, version := V, extension := e.extension }]) ∧
    (∀ V : GoString,
      (e.extension ≠ lit "spdx.json" →
        ResolvedFormat.documentVersion
          { name := F, version := V, extension := e.extension } = V) ∧
      (e.extension = lit "spdx.json" →
        ResolvedFormat.documentVersion
          { name := F, version := V, extension := e.extension } = lit "SPDX-" ++ V)) := by
  have hn := lookupFormat_name reg F e he
  refine ⟨?_, (latest_greatest e).1, (latest_greatest e).2, latest_unique e,
    latest_major e, ?_, ?_⟩
  · rw [InFormats_cons, parseFormatSpec_name F hF]
    simp [resolveFormat, he, hn, InFormats]
  · intro V hV
    rw [InFormats_cons, parseFormatSpec_version F V hF]
    simp [resolveFormat, he, hn, hV, InFormats]
  · intro V
    constructor
    · intro hx
      simp [ResolvedFormat.documentVersion, hx]
    · intro hx
      simp [ResolvedFormat.documentVersion, hx]

/-- Witness of C11 in the sample registry: without a version the three formats
resolve to 3.0.1, 1.4 and 2.2, the requested versions 2.0.2 and 1.3 resolve to
themselves, and the documents report 2.0.2, 1.3 and SPDX-2.2. -/
theorem InFormats_version_resolution_witness :
    (0x3B ∉ lit "application/vnd.syft+json" ∧
      lookupFormat sampleRegistry (lit "application/vnd.syft+json") =
        some { name := lit "application/vnd.syft+json", version := lit "3.0.1",
               more := [lit "2.0.2"], extension := lit "syft.json" }) ∧
    InFormats sampleRegistry [lit "application/vnd.syft+json"] =
      Except.ok [{ name := lit "application/vnd.syft+json", version := lit "3.0.1",
                   extension := lit "syft.json" }] ∧
    InFormats sampleRegistry [lit "application/vnd.syft+json;version=2.0.2"] =
      Except.ok [{ name := lit "application/vnd.syft+json", version := lit "2.0.2",
                   extension := lit "syft.json" }] ∧
    InFormats sampleRegistry [lit "application/vnd.cyclonedx+json;version=1.3"] =
      Except.ok [{ name := lit "application/vnd.cyclonedx+json", version := lit "1.3",
                   extension := lit "cdx.json" }] ∧
    InFormats sampleRegistry [lit "application/vnd.syft+json",
        lit "application/vnd.cyclonedx+json", lit "application/spdx+json"] =
      Except.ok [{ name := lit "application/vnd.syft+json", version := lit "3.0.1",
                   extension := lit "syft.json" },
                 { name := lit "application/vnd.cyclonedx+json", version := lit "1.4",
                   extension := lit "cdx.json" },
                 { name := lit "application/spdx+json", version := lit "2.2",
                   extension := lit "spdx.json" }] ∧
    ResolvedFormat.documentVersion
      { name := lit "application/vnd.syft+json", version := lit "2.0.2",
        extension := lit "syft.json" } = lit "2.0.2" ∧
    ResolvedFormat.documentVersion
      { name := lit "application/vnd.cyclonedx+json", version := lit "1.3",
        extension := lit "cdx.json" } = lit "1.3" ∧
    ResolvedFormat.documentVersion
      { name := lit "application/spdx+json", version := lit "2.2",
        extension := lit "spdx.json" } = lit "SPDX-2.2" :=
  ⟨⟨by decide, by decide⟩,
    (InFormats_version_resolution sampleRegistry
      { name := lit "application/vnd.syft+json", version := lit "3.0.1",
        more := [lit "2.0.2"], extension := lit "syft.json" }
      (lit "application/vnd.syft+json") (by decide) (by decide)).1,
    rfl, rfl, rfl, by decide, by decide, by decide⟩

end Packit
